import Mathlib

/-!
FileOrganiser: catalog, tag registry and move engine

A shallow embedding of `SearchManager`, `TagManager` and `FileManager`
(`src/src/Managers/*.cpp`) together with the properties proved about them.

Conventions of the embedding

* C++ objects become structures; a member function becomes a function from the
  state before the call to the returned value and the state after it.
* Everything the operating system decides (what a directory walk yields, whether a
  status query throws, whether a file can be opened or renamed) is an explicit argument.
* `std::unordered_map<std::string, V>` is an association list `List (String × V)` that is
  only touched through `Map.find`, `Map.assign`, `Map.emplace`, `Map.erase` and
  `Map.modify`; its iteration order is the order of the list.
* `int` is an `Int` kept in the 32-bit range by `wrapInt32`; `size_t` indices are `Nat`.
-/

namespace FileOrganiser

/-! ## Association maps (`std::unordered_map`) -/

namespace Map

/-- `m.find(k)`: the value stored under `k`, `none` standing for `m.end()`. -/
def find {V : Type} : List (String × V) → String → Option V
  | [], _ => none
  | (k', v) :: rest, k => if k' = k then some v else find rest k

/-- `m[k] = v`: overwrite the value under `k`, or insert the pair when `k` is absent. -/
def assign {V : Type} : List (String × V) → String → V → List (String × V)
  | [], k, v => [(k, v)]
  | (k', v') :: rest, k, v =>
    if k' = k then (k, v) :: rest else (k', v') :: assign rest k v

/-- `m.emplace(k, v)`: insert the pair unless `k` is already a key. -/
def emplace {V : Type} (m : List (String × V)) (k : String) (v : V) : List (String × V) :=
  match find m k with
  | some _ => m
  | none => m ++ [(k, v)]

/-- `m.erase(k)`: drop the entry stored under `k`. -/
def erase {V : Type} (m : List (String × V)) (k : String) : List (String × V) :=
  m.filter (fun p => decide (p.1 ≠ k))

/-- The keys of the map, in iteration order. -/
def keys {V : Type} (m : List (String × V)) : List String :=
  m.map Prod.fst

end Map

/-! ## Paths (`std::filesystem::path`, generic format with `/` as separator) -/

/-- Characters of `path::filename()`: what follows the last separator. -/
def filenameChars (p : List Char) : List Char :=
  (p.reverse.takeWhile (fun c => decide (c ≠ '/'))).reverse

/-- Split a file name into `path::stem()` and `path::extension()`.  The extension starts at
the rightmost period, unless the name is `.` or `..` or that period is the first character. -/
def splitExtension (f : List Char) : List Char × List Char :=
  if f = ['.', '.'] then (f, [])
  else
    let extRev := f.reverse.takeWhile (fun c => decide (c ≠ '.'))
    match f.reverse.dropWhile (fun c => decide (c ≠ '.')) with
    | [] => (f, [])
    | [_] => (f, [])
    | _ :: stemRev => (stemRev.reverse, '.' :: extRev.reverse)

/-- `path::filename().string()`. -/
def filename (p : String) : String := String.mk (filenameChars p.data)

/-- `path::stem().string()`. -/
def stem (p : String) : String := String.mk (splitExtension (filenameChars p.data)).1

/-- `path::extension().string()`. -/
def extension (p : String) : String := String.mk (splitExtension (filenameChars p.data)).2

/-! ## Catalog (`SearchManager`) -/

/-- Two's-complement wrap of an `int` result into the 32-bit range. -/
def wrapInt32 (x : Int) : Int := (x + 2147483648) % 4294967296 - 2147483648

inductive SearchMode where
  | TOP_LEVEL
  | RECURSIVE
  deriving DecidableEq, Repr

inductive FileType where
  | REGULAR_FILE
  | DIRECTORY
  | SYMBOLIC_LINK
  | MISC
  deriving DecidableEq, Repr

structure FileData where
  fileID : Int
  name : String
  path : String
  type : FileType
  tag : String
  modifiedTime : Int
  deriving DecidableEq, Repr

/-- One item produced by a directory walk, with the answers the filesystem gives to the
queries `getFileData` makes about it.  `uninitID` and `uninitType` are the values the
uninitialised members of the local `FileData file;` happen to hold. -/
structure DirEntry where
  /-- The string of `entry.path()`. -/
  path : String
  /-- Whether the `is_regular_file` / `is_directory` / `is_symlink` cascade throws. -/
  typeQueryThrows : Bool
  isRegularFile : Bool
  isDirectory : Bool
  isSymlink : Bool
  /-- The converted `last_write_time`, `none` when the query throws. -/
  lastWriteTime : Option Int
  uninitID : Int
  uninitType : FileType
  deriving DecidableEq, Repr

/-- `SearchManager::getFileData`.  A `filesystem_error` leaves the members assigned so far
and sets `fileID` to `-1`; a default-constructed `time_point` is the epoch, `0`. -/
def getFileData (entry : DirEntry) : FileData :=
  let file : FileData :=
    { fileID := entry.uninitID, name := "", path := "", type := entry.uninitType,
      tag := "", modifiedTime := 0 }
  let file := { file with name := stem entry.path }
  let file := { file with path := entry.path }
  if entry.typeQueryThrows then { file with fileID := -1 }
  else
    let file := { file with type :=
      if entry.isRegularFile then FileType.REGULAR_FILE
      else if entry.isDirectory then FileType.DIRECTORY
      else if entry.isSymlink then FileType.SYMBOLIC_LINK
      else FileType.MISC }
    match entry.lastWriteTime with
    | none => { file with fileID := -1 }
    | some t => { file with modifiedTime := t }

/-- The data members of `SearchManager`. -/
structure SearchManager where
  m_files : List FileData
  m_filePathIndexMap : List (String × Nat)
  m_NextFileID : Int
  m_lastMode : SearchMode
  currentDirectoryPath : String
  deriving DecidableEq, Repr

/-- `SearchManager::SearchManager(mode)`. -/
def SearchManager.new (mode : SearchMode) : SearchManager :=
  { m_files := [], m_filePathIndexMap := [], m_NextFileID := 0, m_lastMode := mode,
    currentDirectoryPath := "" }

/-- The loop body of `LoadMetaData`, run over the items the directory iterator yields.
Both modes run the same body; they differ only in which iterator produces the walk. -/
def loadLoop (s : SearchManager) : List DirEntry → Bool × SearchManager
  | [] => (true, s)
  | entry :: rest =>
    let file := getFileData entry
    if file.fileID = -1 then (false, s)
    else
      let file := { file with fileID := s.m_NextFileID }
      let files := s.m_files ++ [file]
      loadLoop
        { s with
          m_NextFileID := wrapInt32 (s.m_NextFileID + 1)
          m_files := files
          m_filePathIndexMap := Map.assign s.m_filePathIndexMap file.path (files.length - 1) }
        rest

/-- `SearchManager::LoadMetaData(path, mode)`; `walk` is what the iterator selected by
`mode` yields for `path`. -/
def LoadMetaData (s : SearchManager) (path : String) (mode : SearchMode)
    (walk : List DirEntry) : Bool × SearchManager :=
  loadLoop
    { s with
      currentDirectoryPath := path
      m_lastMode := mode
      m_NextFileID := 0
      m_files := []
      m_filePathIndexMap := [] }
    walk

/-- The loop body of `Refresh`, run over the items the directory iterator yields.  An index
stored in the path map that is out of range for `m_files` (undefined behaviour in the
source, excluded for reachable states by `Indexed`) leaves the entry list alone. -/
def refreshLoop (s : SearchManager) : List DirEntry → Bool × SearchManager
  | [] => (true, s)
  | entry :: rest =>
    match Map.find s.m_filePathIndexMap entry.path with
    | some idx =>
      let refreshFile := getFileData entry
      match s.m_files[idx]? with
      | some stored =>
        if refreshFile.modifiedTime ≠ stored.modifiedTime then
          refreshLoop
            { s with m_files := s.m_files.set idx { refreshFile with fileID := stored.fileID } }
            rest
        else refreshLoop s rest
      | none => refreshLoop s rest
    | none =>
      let file := getFileData entry
      if file.fileID = -1 then (false, s)
      else
        let file := { file with fileID := s.m_NextFileID }
        refreshLoop
          { s with
            m_NextFileID := wrapInt32 (s.m_NextFileID + 1)
            m_files := s.m_files ++ [file] }
          rest

/-- `SearchManager::Refresh()`; `walk` is what the iterator selected by `m_lastMode` yields
for `currentDirectoryPath`. -/
def Refresh (s : SearchManager) (walk : List DirEntry) : Bool × SearchManager :=
  refreshLoop s walk

/-- `SearchManager::GetAllFiles`. -/
def GetAllFiles (s : SearchManager) : List FileData := s.m_files

/-- `SearchManager::FindFileByID`: the first entry with the given id. -/
def FindFileByID (s : SearchManager) (id : Int) : Option FileData :=
  s.m_files.find? (fun file => decide (file.fileID = id))

/-- `SearchManager::FindFileByName`: the first entry with the given name. -/
def FindFileByName (s : SearchManager) (name : String) : Option FileData :=
  s.m_files.find? (fun file => decide (file.name = name))

/-- `SearchManager::FindFileByPath`: the entry at the position the path map records. -/
def FindFileByPath (s : SearchManager) (path : String) : Option FileData :=
  match Map.find s.m_filePathIndexMap path with
  | none => none
  | some idx => s.m_files[idx]?

/-- A readable item: no query about it throws. -/
def DirEntry.readable (entry : DirEntry) : Bool :=
  !entry.typeQueryThrows && entry.lastWriteTime.isSome

/-- Sample walks used to exercise the catalog. -/
def sampleEntry (path : String) (mtime : Int) : DirEntry :=
  { path := path, typeQueryThrows := false, isRegularFile := true, isDirectory := false,
    isSymlink := false, lastWriteTime := some mtime, uninitID := 0,
    uninitType := FileType.MISC }

/-- An item whose `last_write_time` query throws. -/
def brokenEntry (path : String) : DirEntry :=
  { path := path, typeQueryThrows := false, isRegularFile := false, isDirectory := false,
    isSymlink := true, lastWriteTime := none, uninitID := 0, uninitType := FileType.MISC }

/-- Catalog states the claims speak about: the result of a successful `LoadMetaData`,
followed by any number of `Refresh` calls (successful or not). -/
inductive CatalogReachable : SearchManager → Prop
  | scan (s0 : SearchManager) (path : String) (mode : SearchMode) (walk : List DirEntry) :
      (LoadMetaData s0 path mode walk).1 = true →
      CatalogReachable (LoadMetaData s0 path mode walk).2
  | refresh (s : SearchManager) (walk : List DirEntry) :
      CatalogReachable s → CatalogReachable (Refresh s walk).2

/-- The entry at position `i` carries the id `i` (as an `int`), and the counter equals the
number of entries. -/
def SequentialIds (s : SearchManager) : Prop :=
  s.m_NextFileID = wrapInt32 s.m_files.length ∧
    s.m_files.map (fun f => f.fileID) =
      (List.range s.m_files.length).map (fun i : Nat => wrapInt32 (i : Int))

/-- A catalog obtained by scanning a directory holding `d/a` and then refreshing after
`d/b` appeared. -/
def sampleCatalog : SearchManager :=
  (Refresh (LoadMetaData (SearchManager.new SearchMode.TOP_LEVEL) "d" SearchMode.TOP_LEVEL
    [sampleEntry "d/a" 1]).2 [sampleEntry "d/a" 1, sampleEntry "d/b" 2]).2

/-- Every path the index knows points at an existing position whose entry has that path. -/
def Indexed (s : SearchManager) : Prop :=
  ∀ p i, Map.find s.m_filePathIndexMap p = some i →
    ∃ f, s.m_files[i]? = some f ∧ f.path = p

/-- One iteration of the loop of `Refresh`: whether the loop goes on, and the state after
the iteration.  `refreshLoop_cons` relates it to `refreshLoop`. -/
def refreshStep (s : SearchManager) (entry : DirEntry) : Bool × SearchManager :=
  match Map.find s.m_filePathIndexMap entry.path with
  | some idx =>
    match s.m_files[idx]? with
    | some stored =>
      if (getFileData entry).modifiedTime ≠ stored.modifiedTime then
        (true,
          { s with
            m_files := s.m_files.set idx { getFileData entry with fileID := stored.fileID } })
      else (true, s)
    | none => (true, s)
  | none =>
    if (getFileData entry).fileID = -1 then (false, s)
    else
      (true,
        { s with
          m_NextFileID := wrapInt32 (s.m_NextFileID + 1)
          m_files := s.m_files ++ [{ getFileData entry with fileID := s.m_NextFileID }] })

/-! ## Tag registry (`TagManager`) -/

/-- `Map.modify m k f`: the effect of `it->second = f(it->second)` for `it = m.find(k)`. -/
def Map.modify {V : Type} (m : List (String × V)) (k : String) (f : V → V) :
    List (String × V) :=
  m.map (fun p => if p.1 = k then (p.1, f p.2) else p)

structure TagInfo where
  destination : String
  fileIndices : List Nat
  deriving DecidableEq, Repr

/-- What the code can observe of the file `tags.json`.  In `tags entries` every key of the
`tags` object comes with its `destination` when that member is a string, and with `none`
when it is absent or not a string. -/
inductive StoreFile where
  /-- The file does not exist. -/
  | missing
  /-- The file exists but is not valid JSON: parsing it throws. -/
  | malformed
  /-- The document has no member `tags` that is an object. -/
  | noTags
  | tags (entries : List (String × Option String))
  deriving DecidableEq, Repr

/-- The outcomes of the file operations of one call, decided by the operating system. -/
structure SaveEnv where
  /-- Whether `tags.json.tmp` can be opened for writing. -/
  tmpOpens : Bool
  /-- Whether `ofs << j.dump(4)` puts the whole document into the opened file; when it
  does not (a full disk, say) the file holds a truncated document. -/
  writeOk : Bool
  /-- Whether the first `fs::rename` of the temporary file succeeds. -/
  renameOk : Bool
  /-- Whether `fs::remove("tags.json")` removes the file. -/
  removeOk : Bool
  /-- Whether the second `fs::rename` succeeds. -/
  retryOk : Bool
  /-- Whether `LoadTagsFromJson` can open a fresh `tags.json` for its direct write. -/
  directWriteOk : Bool
  deriving DecidableEq, Repr

/-- The members of `TagManager` (`m_impl->tags`), together with the file `tags.json` it
reads and writes. -/
structure TagManager where
  tags : List (String × TagInfo)
  tagsJson : StoreFile
  deriving DecidableEq, Repr

/-- `TagManager::NormalizeTag`: the identity. -/
def NormalizeTag (tag : String) : String := tag

/-- `TagManager::SaveTagsToJson`: only `destination` is written for each tag.  The source
tests the open and both renames, but not the stream after `ofs << j.dump(4)`: when the
write fails, the temporary file holds a truncated document, which does not parse, and it is
renamed over `tags.json` all the same.  An exception is reported as `false` like a failed
open. -/
def SaveTagsToJson (env : SaveEnv) (s : TagManager) : Bool × TagManager :=
  let j := StoreFile.tags (s.tags.map (fun p => (p.1, some p.2.destination)))
  if !env.tmpOpens then (false, s)
  else
    let written := if env.writeOk then j else StoreFile.malformed
    if env.renameOk then (true, { s with tagsJson := written })
    else
      let s1 := if env.removeOk then { s with tagsJson := StoreFile.missing } else s
      if env.retryOk then (true, { s1 with tagsJson := written }) else (false, s1)

/-- Whether `SaveTagsToJson` reports success under these outcomes. -/
def SaveEnv.succeeds (env : SaveEnv) : Bool :=
  env.tmpOpens && (env.renameOk || env.retryOk)

/-- `TagManager::LoadTagsFromJson`. -/
def LoadTagsFromJson (env : SaveEnv) (s : TagManager) : Bool × TagManager :=
  match s.tagsJson with
  | StoreFile.missing =>
    (true,
      if env.directWriteOk then
        { s with tagsJson := if env.writeOk then StoreFile.tags [] else StoreFile.malformed }
      else s)
  | StoreFile.malformed => (false, s)
  | StoreFile.noTags => SaveTagsToJson env { s with tags := [] }
  | StoreFile.tags entries =>
    (true,
      { s with
        tags := entries.foldl
          (fun m e => Map.emplace m e.1 { destination := e.2.getD "", fileIndices := [] })
          s.tags })

/-- `TagManager::TagManager`: an empty map, then `LoadTagsFromJson`. -/
def TagManager.new (env : SaveEnv) (store : StoreFile) : TagManager :=
  (LoadTagsFromJson env { tags := [], tagsJson := store }).2

/-- `TagManager::ResolveFileIndex`: the body holds no call into `SearchManager`, only
commented-out sketches, and ends in `return std::nullopt`. -/
def ResolveFileIndex (_searchManager : SearchManager) (_filePath : String) : Option Nat :=
  none

/-- The static helper `push_unique_index`. -/
def push_unique_index (vec : List Nat) (idx : Nat) : List Nat :=
  if idx ∈ vec then vec else vec ++ [idx]

/-- `TagManager::CreateTag`. -/
def CreateTag (env : SaveEnv) (s : TagManager) (tagName : String) : Bool × TagManager :=
  let tag := NormalizeTag tagName
  match Map.find s.tags tag with
  | some _ => (false, s)
  | none =>
    SaveTagsToJson env
      { s with tags := Map.emplace s.tags tag { destination := "", fileIndices := [] } }

/-- `TagManager::DeleteTag`. -/
def DeleteTag (env : SaveEnv) (s : TagManager) (tagName : String) : Bool × TagManager :=
  let tag := NormalizeTag tagName
  match Map.find s.tags tag with
  | none => (false, s)
  | some _ => SaveTagsToJson env { s with tags := Map.erase s.tags tag }

/-- `TagManager::AssignTagByIndex`. -/
def AssignTagByIndex (env : SaveEnv) (s : TagManager) (fileIndex : Nat) (tagName : String) :
    Bool × TagManager :=
  let tag := NormalizeTag tagName
  match Map.find s.tags tag with
  | none =>
    let saved := SaveTagsToJson env
      { s with tags := Map.emplace s.tags tag { destination := "", fileIndices := [] } }
    if !saved.1 then (false, { saved.2 with tags := Map.erase saved.2.tags tag })
    else
      (true,
        { saved.2 with
          tags := Map.modify saved.2.tags tag
            (fun info => { info with fileIndices := push_unique_index info.fileIndices fileIndex }) })
  | some _ =>
    (true,
      { s with
        tags := Map.modify s.tags tag
          (fun info => { info with fileIndices := push_unique_index info.fileIndices fileIndex }) })

/-- The loop of `RemoveTagByIndex` over the tags: `anyRemoved`, and the tags afterwards. -/
def removeLoop (fileIndex : Nat) : List (String × TagInfo) → Bool × List (String × TagInfo)
  | [] => (false, [])
  | (tag, info) :: rest =>
    let vec := info.fileIndices.filter (fun i => decide (i ≠ fileIndex))
    let r := removeLoop fileIndex rest
    (decide (vec.length ≠ info.fileIndices.length) || r.1,
      (tag, { info with fileIndices := vec }) :: r.2)

/-- `TagManager::RemoveTagByIndex`. -/
def RemoveTagByIndex (s : TagManager) (fileIndex : Nat) : Bool × TagManager :=
  ((removeLoop fileIndex s.tags).1, { s with tags := (removeLoop fileIndex s.tags).2 })

/-- `TagManager::AssignTag`. -/
def AssignTag (env : SaveEnv) (searchManager : SearchManager) (s : TagManager)
    (filePath : String) (tagName : String) : Bool × TagManager :=
  match ResolveFileIndex searchManager filePath with
  | none => (false, s)
  | some idx => AssignTagByIndex env s idx tagName

/-- `TagManager::RemoveTag`. -/
def RemoveTag (searchManager : SearchManager) (s : TagManager) (filePath : String) :
    Bool × TagManager :=
  match ResolveFileIndex searchManager filePath with
  | none => (false, s)
  | some idx => RemoveTagByIndex s idx

/-- `TagManager::GetFilesByTag`: for every member index the local `fd` is `nullptr`, so the
`if (fd)` never pushes. -/
def GetFilesByTag (_searchManager : SearchManager) (s : TagManager) (tagName : String) :
    List FileData :=
  match Map.find s.tags (NormalizeTag tagName) with
  | none => []
  | some info => info.fileIndices.filterMap (fun _idx => (none : Option FileData))

/-- `TagManager::GetTagMap`.  `TagManager.cpp` defines it twice; this is the second
definition, which rebuilds the view from `m_impl->tags` on every call (the first one fills
`m_tagMapCache` once and returns it from then on). -/
def GetTagMap (s : TagManager) : List (String × List Nat) :=
  s.tags.map (fun p => (p.1, p.2.fileIndices))

/-- Registry states: the constructor, followed by any calls of the public operations. -/
inductive TagReachable : TagManager → Prop
  | init (env : SaveEnv) (store : StoreFile) : TagReachable (TagManager.new env store)
  | createTag (env : SaveEnv) (s : TagManager) (tagName : String) :
      TagReachable s → TagReachable (CreateTag env s tagName).2
  | deleteTag (env : SaveEnv) (s : TagManager) (tagName : String) :
      TagReachable s → TagReachable (DeleteTag env s tagName).2
  | assignTagByIndex (env : SaveEnv) (s : TagManager) (fileIndex : Nat) (tagName : String) :
      TagReachable s → TagReachable (AssignTagByIndex env s fileIndex tagName).2
  | removeTagByIndex (s : TagManager) (fileIndex : Nat) :
      TagReachable s → TagReachable (RemoveTagByIndex s fileIndex).2
  | assignTag (env : SaveEnv) (searchManager : SearchManager) (s : TagManager)
      (filePath tagName : String) :
      TagReachable s → TagReachable (AssignTag env searchManager s filePath tagName).2
  | removeTag (searchManager : SearchManager) (s : TagManager) (filePath : String) :
      TagReachable s → TagReachable (RemoveTag searchManager s filePath).2

/-- The representation invariant of the registry: tag names are the keys of a map, hence
pairwise distinct, and no member list holds an index twice. -/
def TagListWF (m : List (String × TagInfo)) : Prop :=
  (Map.keys m).Nodup ∧ ∀ p ∈ m, p.2.fileIndices.Nodup

/-- The representation invariant, for a registry state. -/
def TagsWF (s : TagManager) : Prop := TagListWF s.tags

/-- File operations that all succeed. -/
def okEnv : SaveEnv :=
  { tmpOpens := true, writeOk := true, renameOk := true, removeOk := true, retryOk := true,
    directWriteOk := true }

/-- File operations that all fail. -/
def failEnv : SaveEnv :=
  { tmpOpens := false, writeOk := false, renameOk := false, removeOk := false,
    retryOk := false, directWriteOk := false }

/-- A full disk: files open and are renamed, but nothing can be written into them. -/
def fullDiskEnv : SaveEnv :=
  { tmpOpens := true, writeOk := false, renameOk := true, removeOk := true, retryOk := true,
    directWriteOk := true }

/-! ## Move engine (`FileManager`) -/

/-- `dir / name` for a relative `name`: a separator is put between the two unless `dir` is
empty or already ends in one. -/
def pathJoin (dir name : String) : String :=
  if dir = "" then name
  else if dir.data.getLast? = some '/' then dir ++ name
  else dir ++ "/" ++ name

/-- The paths that exist (files and directories alike). -/
structure FileSystem where
  paths : List String
  deriving DecidableEq, Repr

/-- The outcomes of the file operations of a move, decided by the operating system. -/
structure MoveEnv where
  /-- Whether `fs::create_directories` succeeds for the path. -/
  canCreate : String → Bool
  /-- Whether `fs::rename` of the source path succeeds (it throws otherwise). -/
  renameOk : String → Bool

/-- What a call produces: a result, an exception that leaves the function uncaught, or (in
the model only) a loop that has not finished within the fuel it was given. -/
inductive Outcome (α : Type) where
  | done (a : α)
  | uncaught
  | outOfFuel
  deriving DecidableEq, Repr

/-- The directory and all its ancestors, outermost first. -/
def directoryChain (p : String) : List String :=
  ((List.range p.data.length).filter
      (fun i => decide (0 < i) && decide (p.data[i]? = some '/'))).map
    (fun i => String.mk (p.data.take i)) ++ [p]

/-- `FileManager::EnsureDirectory`: errors of `create_directories` are swallowed. -/
def EnsureDirectory (env : MoveEnv) (fs : FileSystem) (dest : String) : FileSystem :=
  if dest ∈ fs.paths then fs
  else if env.canCreate dest then
    { paths := fs.paths ++ (directoryChain dest).filter (fun d => decide (d ∉ fs.paths)) }
  else fs

/-- The name built inside the loop: `stem + "_" + std::to_string(count) + ext`. -/
def candidateName (stem ext : String) (count : Int) : String :=
  stem ++ "_" ++ toString count ++ ext

/-- The loop `while (fs::exists(destFile)) destFile = destDir / (stem + "_" +
std::to_string(count++) + ext)` on the name of `destFile`; `occupied n` says whether
`destDir / n` exists.  Each test of the loop condition uses one unit of fuel. -/
def renameLoop (occupied : String → Bool) (stem ext : String) :
    Nat → Int → String → Option String
  | 0, _, _ => none
  | fuel + 1, count, dest =>
    if occupied dest then
      renameLoop occupied stem ext fuel (wrapInt32 (count + 1)) (candidateName stem ext count)
    else some dest

/-- The name `MoveSingleFile` gives the file in the destination directory; `none` when the
loop has not finished within `fuel` tests. -/
def destinationName (occupied : String → Bool) (fileName : String) (fuel : Nat) :
    Option String :=
  if occupied fileName then
    renameLoop occupied (stem fileName) (extension fileName) fuel 1 fileName
  else some fileName

/-- `FileManager::MoveSingleFile`: every exception is caught and reported as `false`. -/
def MoveSingleFile (fuel : Nat) (env : MoveEnv) (fs : FileSystem) (file : FileData)
    (destination : String) : Option (Bool × FileSystem) :=
  if file.path ∉ fs.paths then some (false, fs)
  else
    let fs1 := EnsureDirectory env fs destination
    match destinationName (fun n => decide (pathJoin destination n ∈ fs1.paths))
        (filename file.path) fuel with
    | none => none
    | some name =>
      if env.renameOk file.path then
        some (true, { paths := fs1.paths.erase file.path ++ [pathJoin destination name] })
      else some (false, fs1)

/-- The loop of `MoveFilesByTag` over the resolved files. -/
def moveLoop (fuel : Nat) (env : MoveEnv) (destination : String) :
    FileSystem → Nat → List FileData → Outcome (Nat × FileSystem)
  | fs, movedCount, [] => Outcome.done (movedCount, fs)
  | fs, movedCount, fd :: rest =>
    match MoveSingleFile fuel env fs fd destination with
    | none => Outcome.outOfFuel
    | some (true, fs1) => moveLoop fuel env destination fs1 (movedCount + 1) rest
    | some (false, fs1) => moveLoop fuel env destination fs1 movedCount rest

/-- `FileManager::MoveFilesByTag`.  Parsing a malformed `tags.json`, or reading a
`destination` that is not a string, throws out of the function. -/
def MoveFilesByTag (fuel : Nat) (env : MoveEnv) (searchManager : SearchManager)
    (tagManager : TagManager) (fs : FileSystem) (tagName : String) :
    Outcome (Nat × FileSystem) :=
  match Map.find (GetTagMap tagManager) tagName with
  | none => Outcome.done (0, fs)
  | some _ =>
    let files := GetFilesByTag searchManager tagManager tagName
    match tagManager.tagsJson with
    | StoreFile.missing => Outcome.done (0, fs)
    | StoreFile.malformed => Outcome.uncaught
    | StoreFile.noTags => Outcome.done (0, fs)
    | StoreFile.tags entries =>
      match Map.find entries tagName with
      | none => Outcome.done (0, fs)
      | some none => Outcome.uncaught
      | some (some destination) =>
        moveLoop fuel env destination (EnsureDirectory env fs destination) 0 files

/-- The loop of `MoveAllTaggedFiles` over the tag map. -/
def moveAllLoop (fuel : Nat) (env : MoveEnv) (searchManager : SearchManager)
    (tagManager : TagManager) :
    FileSystem → Nat → List (String × List Nat) → Outcome (Nat × FileSystem)
  | fs, movedCount, [] => Outcome.done (movedCount, fs)
  | fs, movedCount, (tagName, _) :: rest =>
    match MoveFilesByTag fuel env searchManager tagManager fs tagName with
    | Outcome.done (n, fs1) =>
      moveAllLoop fuel env searchManager tagManager fs1 (movedCount + n) rest
    | Outcome.uncaught => Outcome.uncaught
    | Outcome.outOfFuel => Outcome.outOfFuel

/-- `FileManager::MoveAllTaggedFiles`. -/
def MoveAllTaggedFiles (fuel : Nat) (env : MoveEnv) (searchManager : SearchManager)
    (tagManager : TagManager) (fs : FileSystem) : Outcome (Nat × FileSystem) :=
  moveAllLoop fuel env searchManager tagManager fs 0 (GetTagMap tagManager)

/-- Moves in which every file operation succeeds. -/
def okMoveEnv : MoveEnv :=
  { canCreate := fun _ => true, renameOk := fun _ => true }

/-- Reading a decimal numeral back: the value of a list of digit characters. -/
def decodeDigits (cs : List Char) (acc : Nat) : Nat :=
  cs.foldl (fun a c => 10 * a + (c.toNat - 48)) acc

/-- A registry loaded from a store that gives tag `t` the destination `sorted`, after the
entry with index 0 was assigned to `t`. -/
def sampleRegistry : TagManager :=
  (AssignTagByIndex okEnv (TagManager.new okEnv (StoreFile.tags [("t", some "sorted")])) 0 "t").2

/-- Catalog states that the operations of `SearchManager` can build: the constructor,
followed by any calls of `LoadMetaData` and `Refresh`, successful or not. -/
inductive CatalogBuilt : SearchManager → Prop
  | new (mode : SearchMode) : CatalogBuilt (SearchManager.new mode)
  | load (s : SearchManager) (path : String) (mode : SearchMode) (walk : List DirEntry) :
      CatalogBuilt s → CatalogBuilt (LoadMetaData s path mode walk).2
  | refresh (s : SearchManager) (walk : List DirEntry) :
      CatalogBuilt s → CatalogBuilt (Refresh s walk).2

/-- Every entry of `s` is still in `t`, at the same position, with the same id and the same
path, and `t` has at least as many entries. -/
def KeepsEntries (s t : SearchManager) : Prop :=
  s.m_files.length ≤ t.m_files.length ∧
    ∀ (i : Nat) (f : FileData), s.m_files[i]? = some f →
      ∃ g, t.m_files[i]? = some g ∧ g.fileID = f.fileID ∧ g.path = f.path

/-- The catalog after a successful scan of a directory that holds only `d/a`. -/
def scannedCatalog : SearchManager :=
  (LoadMetaData (SearchManager.new SearchMode.TOP_LEVEL) "d" SearchMode.TOP_LEVEL
    [sampleEntry "d/a" 1]).2

/-- The name and destination pairs that `SaveTagsToJson` writes for a tag map. -/
def destinationView (m : List (String × TagInfo)) : List (String × Option String) :=
  m.map (fun p => (p.1, some p.2.destination))

/-- The durable store holds exactly the in-memory name and destination pairs: `tags.json`
has a `tags` object in which every name looks up what the tag map gives for it. -/
def StoreConsistent (s : TagManager) : Prop :=
  ∃ entries, s.tagsJson = StoreFile.tags entries ∧
    ∀ k, Map.find entries k = Map.find (destinationView s.tags) k

/-- A registry constructed over a missing `tags.json`: no tags, and an empty store. -/
def emptyRegistry : TagManager := TagManager.new okEnv StoreFile.missing

/-- What `ValidateDestination` sees of the filesystem. -/
structure DestEnv where
  /-- Whether `fs::absolute` throws. -/
  absoluteThrows : Bool
  /-- The string of `fs::absolute(p)`. -/
  absolute : String → String
  /-- The value of `fs::exists(abs, ec)`. -/
  pathExists : String → Bool
  /-- Whether `fs::is_directory(abs, ec)` is true and sets no error. -/
  isDirectory : String → Bool
  /-- Whether `fs::create_directories(abs, ec)` is true and sets no error. -/
  createOk : String → Bool

/-- `TagManager::ValidateDestination`: `some abs` stands for `true` with `outAbsolute = abs`,
`none` for `false`. -/
def ValidateDestination (denv : DestEnv) (path : String) : Option String :=
  if denv.absoluteThrows then none
  else
    let abs := denv.absolute path
    if !denv.pathExists abs then
      if !denv.createOk abs then none else some abs
    else if !denv.isDirectory abs then none
    else some abs

/-- Modelled from the spec: `TagManager::SetDestination`, which `main.cpp` calls but which
`TagManager.h` and `TagManager.cpp` neither declare nor define.  The spec (4.2) says it
"validates the path: resolve to absolute form, create it (and parents) if missing, fail if
it exists but is not a directory. On success, updates the Tag's destination and persists."
The validation is the source's `ValidateDestination`; an unknown tag name is a failure
(7, NotFoundError) and a failed persist undoes the in-memory update (7, PersistenceError). -/
def SetDestination (denv : DestEnv) (env : SaveEnv) (s : TagManager) (name path : String) :
    Bool × TagManager :=
  match ValidateDestination denv path with
  | none => (false, s)
  | some abs =>
    match Map.find s.tags (NormalizeTag name) with
    | none => (false, s)
    | some _ =>
      let saved := SaveTagsToJson env
        { s with
          tags := Map.modify s.tags (NormalizeTag name)
            (fun info => { info with destination := abs }) }
      if saved.1 then (true, saved.2) else (false, { saved.2 with tags := s.tags })

/-- A filesystem in which `/data/notes.txt` is a regular file and nothing else exists. -/
def sampleDestEnv : DestEnv :=
  { absoluteThrows := false
    absolute := fun p => p
    pathExists := fun p => decide (p = "/data/notes.txt")
    isDirectory := fun _ => false
    createOk := fun _ => true }

/-- A registry constructed over a `tags.json` whose entry for `u` is an object without a
`destination` member, after the entry with index 0 was assigned to `u`. -/
def noDestinationRegistry : TagManager :=
  (AssignTagByIndex okEnv (TagManager.new okEnv (StoreFile.tags [("u", none)])) 0 "u").2

/-! # Properties -/

/-! ## Catalog: identifiers -/

theorem wrapInt32_succ (x : Int) : wrapInt32 (wrapInt32 x + 1) = wrapInt32 (x + 1) := by
  unfold wrapInt32
  omega

theorem wrapInt32_of_small (x : Int) (h0 : 0 ≤ x) (h1 : x < 2147483648) : wrapInt32 x = x := by
  unfold wrapInt32
  omega

theorem map_set_same {α β : Type} (f : α → β) (l : List α) (i : Nat) (a stored : α)
    (h : l[i]? = some stored) (hf : f a = f stored) : (l.set i a).map f = l.map f := by
  induction l generalizing i with
  | nil => simp
  | cons x xs ih =>
    cases i with
    | zero =>
      simp only [List.getElem?_cons_zero, Option.some.injEq] at h
      simp [h, hf]
    | succ j =>
      simp only [List.getElem?_cons_succ] at h
      simp [ih j h]

theorem sequentialIds_push (s : SearchManager) (file : FileData) (m : List (String × Nat))
    (h : SequentialIds s) :
    SequentialIds
      { s with
        m_NextFileID := wrapInt32 (s.m_NextFileID + 1)
        m_files := s.m_files ++ [{ file with fileID := s.m_NextFileID }]
        m_filePathIndexMap := m } := by
  obtain ⟨hn, hm⟩ := h
  constructor
  · simp only [List.length_append, List.length_singleton, hn, wrapInt32_succ]
    push_cast
    rfl
  · simp only [List.map_append, List.length_append, List.length_singleton, List.range_succ,
      List.map_cons, List.map_nil, hm, hn]

theorem sequentialIds_set (s : SearchManager) (idx : Nat) (file stored : FileData)
    (hget : s.m_files[idx]? = some stored) (h : SequentialIds s) :
    SequentialIds
      { s with m_files := s.m_files.set idx { file with fileID := stored.fileID } } := by
  obtain ⟨hn, hm⟩ := h
  constructor
  · simpa using hn
  · simp only [List.length_set]
    have hset := map_set_same (fun f : FileData => f.fileID) s.m_files idx
      { file with fileID := stored.fileID } stored hget rfl
    exact hset.trans hm

theorem loadLoop_sequentialIds (walk : List DirEntry) :
    ∀ s : SearchManager, SequentialIds s → SequentialIds (loadLoop s walk).2 := by
  induction walk with
  | nil => intro s h; exact h
  | cons entry rest ih =>
    intro s h
    unfold loadLoop
    by_cases hf : (getFileData entry).fileID = -1
    · simp only [hf, if_true]
      exact h
    · simp only [hf, if_false]
      exact ih _ (sequentialIds_push s (getFileData entry) _ h)

theorem refreshLoop_sequentialIds (walk : List DirEntry) :
    ∀ s : SearchManager, SequentialIds s → SequentialIds (refreshLoop s walk).2 := by
  induction walk with
  | nil => intro s h; exact h
  | cons entry rest ih =>
    intro s h
    unfold refreshLoop
    cases hfind : Map.find s.m_filePathIndexMap entry.path with
    | some idx =>
      simp only
      cases hget : s.m_files[idx]? with
      | some stored =>
        simp only
        split
        · exact ih _ (sequentialIds_set s idx (getFileData entry) stored hget h)
        · exact ih _ h
      | none => exact ih _ h
    | none =>
      simp only
      by_cases hf : (getFileData entry).fileID = -1
      · simp only [hf, if_true]
        exact h
      · simp only [hf, if_false]
        exact ih _ (sequentialIds_push s (getFileData entry) _ h)

theorem catalogReachable_sequentialIds (s : SearchManager) (h : CatalogReachable s) :
    SequentialIds s := by
  induction h with
  | scan s0 path mode walk _ =>
    apply loadLoop_sequentialIds
    constructor
    · simp [wrapInt32]
    · simp
  | refresh s walk _ ih => exact refreshLoop_sequentialIds walk s ih

theorem nodup_wrapped_range (n : Nat) (hn : n ≤ 2147483648) :
    ((List.range n).map (fun i : Nat => wrapInt32 (i : Int))).Nodup := by
  apply List.Nodup.map_on _ (List.nodup_range n)
  intro a ha b hb hab
  rw [List.mem_range] at ha hb
  rw [wrapInt32_of_small a (by omega) (by omega), wrapInt32_of_small b (by omega) (by omega)]
    at hab
  exact_mod_cast hab

theorem find_by_id_of_nodup (l : List FileData) (hnd : (l.map (fun f => f.fileID)).Nodup)
    (e : FileData) (he : e ∈ l) :
    l.find? (fun file => decide (file.fileID = e.fileID)) = some e := by
  induction l with
  | nil => simp at he
  | cons x xs ih =>
    simp only [List.map_cons, List.nodup_cons, List.mem_map, not_exists, not_and] at hnd
    rcases List.mem_cons.mp he with rfl | hmem
    · simp
    · have hne : x.fileID ≠ e.fileID := fun heq => hnd.1 e hmem heq.symm
      simp only [List.find?_cons, hne, decide_False]
      exact ih hnd.2 hmem

/-- C1: in every catalog state reached by a successful `LoadMetaData` followed by any number
of `Refresh` calls (and holding at most 2^31 entries, so that the `int` counter has not
overflowed), the entries' ids are pairwise distinct and `FindFileByID` of an entry's id
returns that entry. -/
theorem C1_ids_unique_and_found (s : SearchManager) (hs : CatalogReachable s)
    (hlen : s.m_files.length ≤ 2147483648) :
    ((GetAllFiles s).map (fun f => f.fileID)).Nodup ∧
      ∀ e ∈ GetAllFiles s, FindFileByID s e.fileID = some e := by
  have hseq := catalogReachable_sequentialIds s hs
  have hnd : (s.m_files.map (fun f => f.fileID)).Nodup := by
    rw [hseq.2]
    exact nodup_wrapped_range _ hlen
  exact ⟨hnd, fun e he => find_by_id_of_nodup s.m_files hnd e he⟩

theorem C1_ids_unique_and_found_witness :
    CatalogReachable sampleCatalog ∧ sampleCatalog.m_files.length ≤ 2147483648 ∧
      ((GetAllFiles sampleCatalog).map (fun f => f.fileID)).Nodup ∧
      ∀ e ∈ GetAllFiles sampleCatalog, FindFileByID sampleCatalog e.fileID = some e :=
  have hr : CatalogReachable sampleCatalog :=
    CatalogReachable.refresh _ _ (CatalogReachable.scan _ _ _ _ (by decide))
  have hl : sampleCatalog.m_files.length ≤ 2147483648 := by decide
  ⟨hr, hl, C1_ids_unique_and_found sampleCatalog hr hl⟩

/-! ## Catalog: failure of a scan -/

theorem getFileData_unreadable (entry : DirEntry) (h : entry.readable = false) :
    (getFileData entry).fileID = -1 := by
  unfold getFileData
  unfold DirEntry.readable at h
  cases ht : entry.typeQueryThrows with
  | true => simp
  | false =>
    cases hl : entry.lastWriteTime with
    | none => simp
    | some t => simp [ht, hl] at h

theorem loadLoop_fails (walk : List DirEntry) :
    ∀ s : SearchManager, (∃ e ∈ walk, e.readable = false) → (loadLoop s walk).1 = false := by
  induction walk with
  | nil => intro s h; simp at h
  | cons entry rest ih =>
    intro s h
    unfold loadLoop
    by_cases hf : (getFileData entry).fileID = -1
    · simp [hf]
    · simp only [hf, if_false]
      apply ih
      obtain ⟨e, he, hr⟩ := h
      rcases List.mem_cons.mp he with rfl | hmem
      · exact absurd (getFileData_unreadable e hr) hf
      · exact ⟨e, hmem, hr⟩

theorem loadLoop_failure_walked (walk : List DirEntry) :
    ∀ s : SearchManager, (loadLoop s walk).1 = false →
      ∃ pre post, walk = pre ++ post ∧ post ≠ [] ∧
        loadLoop s pre = (true, (loadLoop s walk).2) := by
  induction walk with
  | nil => intro s h; simp [loadLoop] at h
  | cons entry rest ih =>
    intro s h
    by_cases hf : (getFileData entry).fileID = -1
    · refine ⟨[], entry :: rest, rfl, by simp, ?_⟩
      simp [loadLoop, hf]
    · unfold loadLoop at h
      simp only [hf, if_false] at h
      obtain ⟨pre, post, hw, hp, heq⟩ := ih _ h
      refine ⟨entry :: pre, post, by simp [hw], hp, ?_⟩
      rw [loadLoop, loadLoop]
      simp only [hf, if_false]
      exact heq

/-- C2 (as stated) fails: after a successful scan of a directory holding `d/a`, a scan that
meets an unreadable item reports failure but has already emptied the catalog. -/
theorem C2_scan_not_transactional :
    ¬ (∀ (s : SearchManager) (path : String) (mode : SearchMode) (walk : List DirEntry),
        (∃ e ∈ walk, e.readable = false) →
          (LoadMetaData s path mode walk).1 = false ∧
          (LoadMetaData s path mode walk).2.m_files = s.m_files ∧
          (LoadMetaData s path mode walk).2.m_NextFileID = s.m_NextFileID ∧
          (LoadMetaData s path mode walk).2.m_filePathIndexMap = s.m_filePathIndexMap) := by
  intro h
  have h1 := h sampleCatalog "d" SearchMode.TOP_LEVEL [brokenEntry "d/b"]
    ⟨brokenEntry "d/b", by simp, by decide⟩
  revert h1
  decide

theorem getFileData_path (entry : DirEntry) : (getFileData entry).path = entry.path := by
  unfold getFileData
  cases entry.typeQueryThrows <;> cases entry.lastWriteTime <;> simp

theorem split_first_failure (walk : List DirEntry)
    (h : ∃ e ∈ walk, (getFileData e).fileID = -1) :
    ∃ pre bad post, walk = pre ++ bad :: post ∧
      (∀ e ∈ pre, (getFileData e).fileID ≠ -1) ∧ (getFileData bad).fileID = -1 := by
  induction walk with
  | nil => simp at h
  | cons x xs ih =>
    by_cases hx : (getFileData x).fileID = -1
    · exact ⟨[], x, xs, rfl, fun e he => absurd he (List.not_mem_nil e), hx⟩
    · obtain ⟨e, he, hfail⟩ := h
      have hmem : e ∈ xs := by
        rcases List.mem_cons.mp he with rfl | hmem
        · exact absurd hfail hx
        · exact hmem
      obtain ⟨pre, bad, post, hw, hpre, hbad⟩ := ih ⟨e, hmem, hfail⟩
      refine ⟨x :: pre, bad, post, by simp [hw], ?_, hbad⟩
      intro e' he'
      rcases List.mem_cons.mp he' with rfl | hm
      · exact hx
      · exact hpre e' hm

theorem loadLoop_stops (pre post : List DirEntry) (bad : DirEntry)
    (hbad : (getFileData bad).fileID = -1) :
    ∀ s : SearchManager, (∀ e ∈ pre, (getFileData e).fileID ≠ -1) →
      loadLoop s (pre ++ bad :: post) = (false, (loadLoop s pre).2) ∧
        (loadLoop s pre).1 = true := by
  induction pre with
  | nil =>
    intro s _
    simp [loadLoop, hbad]
  | cons e pre ih =>
    intro s hpre
    have he : (getFileData e).fileID ≠ -1 := hpre e (List.mem_cons_self _ _)
    rw [List.cons_append, loadLoop, loadLoop]
    simp only [he, if_false]
    exact ih _ (fun e' he' => hpre e' (List.mem_cons_of_mem _ he'))

theorem loadLoop_walked (pre : List DirEntry) :
    ∀ (s : SearchManager) (n : Nat), s.m_files.length = n →
      s.m_NextFileID = wrapInt32 (n : Int) →
      (∀ e ∈ pre, (getFileData e).fileID ≠ -1) →
      (loadLoop s pre).2 =
        { m_files := s.m_files ++ (pre.enumFrom n).map
            (fun p : Nat × DirEntry => { getFileData p.2 with fileID := wrapInt32 (p.1 : Int) })
          m_filePathIndexMap := (pre.enumFrom n).foldl
            (fun m p => Map.assign m p.2.path p.1) s.m_filePathIndexMap
          m_NextFileID := wrapInt32 ((n + pre.length : Nat) : Int)
          m_lastMode := s.m_lastMode
          currentDirectoryPath := s.currentDirectoryPath } := by
  induction pre with
  | nil =>
    intro s n _ hnext _
    cases s
    simp only at hnext
    simp [loadLoop, hnext]
  | cons e pre ih =>
    intro s n hlen hnext hpre
    have he : (getFileData e).fileID ≠ -1 := hpre e (List.mem_cons_self _ _)
    rw [loadLoop]
    simp only [he, if_false]
    rw [ih _ (n + 1) (by simp [hlen])
      (by
        simp only [hnext, wrapInt32_succ]
        push_cast
        rfl)
      (fun e' he' => hpre e' (List.mem_cons_of_mem _ he'))]
    have hcount : n + 1 + pre.length = n + (pre.length + 1) := by omega
    simp only [List.enumFrom_cons, List.map_cons, List.foldl_cons, List.length_cons,
      List.length_append, List.length_singleton, List.length_nil, Nat.zero_add, hlen,
      Nat.add_sub_cancel, hnext, getFileData_path, List.append_assoc, List.singleton_append,
      hcount]

/-- C2 (amended): when some walked item cannot be read, `LoadMetaData` reports failure; the
state it leaves does not depend on the state before the call; and with `bad` the first
walked item on which `getFileData` signals failure and `pre` the items walked before it
(all of them readable), the catalog holds exactly one entry for each item of `pre`, in walk
order with the ids 0, 1, 2, ..., the counter stands at their number, the path index covers
exactly them, and this is the state that a scan of `pre` alone, which succeeds, produces. -/
theorem C2_scan_failure_keeps_walked_items (s : SearchManager) (path : String)
    (mode : SearchMode) (walk : List DirEntry) (h : ∃ e ∈ walk, e.readable = false) :
    (LoadMetaData s path mode walk).1 = false ∧
      (∀ s' : SearchManager, LoadMetaData s' path mode walk = LoadMetaData s path mode walk) ∧
      ∃ pre bad post, walk = pre ++ bad :: post ∧
        (∀ e ∈ pre, (getFileData e).fileID ≠ -1) ∧
        (∀ e ∈ pre, e.readable = true) ∧
        (getFileData bad).fileID = -1 ∧
        (LoadMetaData s path mode walk).2 =
          { m_files := (pre.enumFrom 0).map
              (fun p : Nat × DirEntry =>
                { getFileData p.2 with fileID := wrapInt32 (p.1 : Int) })
            m_filePathIndexMap := (pre.enumFrom 0).foldl
              (fun m p => Map.assign m p.2.path p.1) []
            m_NextFileID := wrapInt32 (pre.length : Int)
            m_lastMode := mode
            currentDirectoryPath := path } ∧
        LoadMetaData s path mode pre = (true, (LoadMetaData s path mode walk).2) := by
  have hfail : (LoadMetaData s path mode walk).1 = false := loadLoop_fails walk _ h
  refine ⟨hfail, fun _ => rfl, ?_⟩
  obtain ⟨e, he, hr⟩ := h
  obtain ⟨pre, bad, post, hw, hpre, hbad⟩ :=
    split_first_failure walk ⟨e, he, getFileData_unreadable e hr⟩
  have hreadable : ∀ e ∈ pre, e.readable = true := by
    intro e' he'
    cases hrd : e'.readable with
    | true => rfl
    | false => exact absurd (getFileData_unreadable e' hrd) (hpre e' he')
  subst hw
  unfold LoadMetaData
  obtain ⟨hstop, hok⟩ := loadLoop_stops pre post bad hbad
    { s with
      currentDirectoryPath := path
      m_lastMode := mode
      m_NextFileID := 0
      m_files := []
      m_filePathIndexMap := [] } hpre
  have hstate := loadLoop_walked pre
    { s with
      currentDirectoryPath := path
      m_lastMode := mode
      m_NextFileID := 0
      m_files := []
      m_filePathIndexMap := [] } 0 rfl (by simp [wrapInt32]) hpre
  simp only [List.nil_append, Nat.zero_add] at hstate
  refine ⟨pre, bad, post, rfl, hpre, hreadable, hbad, ?_, ?_⟩
  · rw [hstop]
    exact hstate
  · rw [hstop]
    exact Prod.ext hok rfl

theorem C2_scan_failure_keeps_walked_items_witness :
    (∃ e ∈ [sampleEntry "d/x" 7, brokenEntry "d/b", sampleEntry "d/y" 8],
        e.readable = false) ∧
      (LoadMetaData sampleCatalog "d" SearchMode.TOP_LEVEL
        [sampleEntry "d/x" 7, brokenEntry "d/b", sampleEntry "d/y" 8]).1 = false ∧
      (LoadMetaData sampleCatalog "d" SearchMode.TOP_LEVEL
        [sampleEntry "d/x" 7, brokenEntry "d/b", sampleEntry "d/y" 8]).2.m_files.map
          (fun f => (f.fileID, f.path)) = [(0, "d/x")] :=
  have h : ∃ e ∈ [sampleEntry "d/x" 7, brokenEntry "d/b", sampleEntry "d/y" 8],
      e.readable = false :=
    ⟨brokenEntry "d/b", by simp, by decide⟩
  ⟨h, (C2_scan_failure_keeps_walked_items sampleCatalog "d" SearchMode.TOP_LEVEL _ h).1,
    by decide⟩

/-! ## Catalog: refreshing an unchanged directory -/

/-- C3 (code evaluated at the failing input): a directory is scanned while it holds `d/a`,
then `d/b` appears and `Refresh` adds it with id 1; a second `Refresh` over the same two
items succeeds as well and adds `d/b` once more, with id 2. -/
theorem C3_refresh_repeats_unindexed_entry :
    (LoadMetaData (SearchManager.new SearchMode.TOP_LEVEL) "d" SearchMode.TOP_LEVEL
        [sampleEntry "d/a" 1]).1 = true ∧
      (Refresh (LoadMetaData (SearchManager.new SearchMode.TOP_LEVEL) "d"
        SearchMode.TOP_LEVEL [sampleEntry "d/a" 1]).2
        [sampleEntry "d/a" 1, sampleEntry "d/b" 2]).1 = true ∧
      sampleCatalog.m_files.map (fun f => (f.fileID, f.path)) = [(0, "d/a"), (1, "d/b")] ∧
      (Refresh sampleCatalog [sampleEntry "d/a" 1, sampleEntry "d/b" 2]).1 = true ∧
      (Refresh sampleCatalog [sampleEntry "d/a" 1, sampleEntry "d/b" 2]).2.m_files.map
        (fun f => (f.fileID, f.path)) = [(0, "d/a"), (1, "d/b"), (2, "d/b")] := by
  decide

/-! ## Catalog: the path index and in-place updates -/

theorem Map.find_assign {V : Type} (m : List (String × V)) (k k' : String) (v : V) :
    Map.find (Map.assign m k v) k' = if k = k' then some v else Map.find m k' := by
  induction m with
  | nil => simp [Map.assign, Map.find]
  | cons x xs ih =>
    obtain ⟨a, b⟩ := x
    by_cases h : a = k
    · subst h
      by_cases h2 : a = k' <;> simp [Map.assign, Map.find, h2]
    · by_cases h2 : a = k'
      · subst h2
        simp [Map.assign, Map.find, h, Ne.symm h]
      · simp [Map.assign, Map.find, h, h2, ih]

theorem indexed_push (s : SearchManager) (file : FileData) (h : Indexed s) :
    Indexed
      { s with
        m_NextFileID := wrapInt32 (s.m_NextFileID + 1)
        m_files := s.m_files ++ [file] } := by
  intro p i hfind
  obtain ⟨f, hf, hp⟩ := h p i hfind
  refine ⟨f, ?_, hp⟩
  have hlt : i < s.m_files.length := by
    rcases Nat.lt_or_ge i s.m_files.length with hlt | hge
    · exact hlt
    · rw [List.getElem?_eq_none hge] at hf
      cases hf
  simp only
  rw [List.getElem?_append_left hlt]
  exact hf

theorem indexed_push_assign (s : SearchManager) (file : FileData) (h : Indexed s) :
    Indexed
      { s with
        m_NextFileID := wrapInt32 (s.m_NextFileID + 1)
        m_files := s.m_files ++ [file]
        m_filePathIndexMap :=
          Map.assign s.m_filePathIndexMap file.path ((s.m_files ++ [file]).length - 1) } := by
  intro p i hfind
  simp only [Map.find_assign] at hfind
  by_cases hp : file.path = p
  · simp only [hp, if_true, Option.some.injEq] at hfind
    subst hfind
    refine ⟨file, ?_, hp⟩
    simp
  · simp only [hp, if_false] at hfind
    exact indexed_push s file h p i hfind

theorem indexed_set (s : SearchManager) (entry : DirEntry) (idx : Nat) (file : FileData)
    (hfile : file.path = entry.path)
    (hfind : Map.find s.m_filePathIndexMap entry.path = some idx) (h : Indexed s) :
    Indexed { s with m_files := s.m_files.set idx file } := by
  intro p i hp
  obtain ⟨f, hf, hfp⟩ := h p i hp
  by_cases hi : idx = i
  · subst hi
    obtain ⟨g, hg, hgp⟩ := h entry.path idx hfind
    have hfg : f = g := by
      rw [hf] at hg
      exact Option.some.inj hg
    have hlt : idx < s.m_files.length := by
      rcases Nat.lt_or_ge idx s.m_files.length with hlt | hge
      · exact hlt
      · rw [List.getElem?_eq_none hge] at hf
        cases hf
    refine ⟨file, ?_, ?_⟩
    · simp only
      rw [List.getElem?_set_self hlt]
    · rw [hfile, ← hgp, ← hfg, hfp]
  · refine ⟨f, ?_, hfp⟩
    simp only
    rw [List.getElem?_set_ne hi]
    exact hf

theorem loadLoop_indexed (walk : List DirEntry) :
    ∀ s : SearchManager, Indexed s → Indexed (loadLoop s walk).2 := by
  induction walk with
  | nil => intro s h; exact h
  | cons entry rest ih =>
    intro s h
    unfold loadLoop
    by_cases hf : (getFileData entry).fileID = -1
    · simp only [hf, if_true]
      exact h
    · simp only [hf, if_false]
      exact ih _ (indexed_push_assign s _ h)

theorem refreshLoop_indexed (walk : List DirEntry) :
    ∀ s : SearchManager, Indexed s → Indexed (refreshLoop s walk).2 := by
  induction walk with
  | nil => intro s h; exact h
  | cons entry rest ih =>
    intro s h
    unfold refreshLoop
    cases hfind : Map.find s.m_filePathIndexMap entry.path with
    | some idx =>
      simp only
      cases hget : s.m_files[idx]? with
      | some stored =>
        simp only
        split
        · exact ih _ (indexed_set s entry idx _ (getFileData_path entry) hfind h)
        · exact ih _ h
      | none => exact ih _ h
    | none =>
      simp only
      by_cases hf : (getFileData entry).fileID = -1
      · simp only [hf, if_true]
        exact h
      · simp only [hf, if_false]
        exact ih _ (indexed_push s _ h)

theorem catalogReachable_indexed (s : SearchManager) (h : CatalogReachable s) : Indexed s := by
  induction h with
  | scan s0 path mode walk _ =>
    apply loadLoop_indexed
    intro p i hp
    simp [Map.find] at hp
  | refresh s walk _ ih => exact refreshLoop_indexed walk s ih

theorem refreshLoop_map (walk : List DirEntry) :
    ∀ s : SearchManager,
      (refreshLoop s walk).2.m_filePathIndexMap = s.m_filePathIndexMap := by
  induction walk with
  | nil => intro s; rfl
  | cons entry rest ih =>
    intro s
    unfold refreshLoop
    cases hfind : Map.find s.m_filePathIndexMap entry.path with
    | some idx =>
      simp only
      cases hget : s.m_files[idx]? with
      | some stored =>
        simp only
        split
        · rw [ih]
        · rw [ih]
      | none => exact ih _
    | none =>
      simp only
      by_cases hf : (getFileData entry).fileID = -1
      · simp only [hf, if_true]
      · simp only [hf, if_false]
        rw [ih]

theorem refreshLoop_cons (s : SearchManager) (entry : DirEntry) (rest : List DirEntry) :
    refreshLoop s (entry :: rest) =
      if (refreshStep s entry).1 = true then refreshLoop (refreshStep s entry).2 rest
      else (false, (refreshStep s entry).2) := by
  rw [refreshLoop]
  unfold refreshStep
  cases Map.find s.m_filePathIndexMap entry.path with
  | some idx =>
    simp only
    cases s.m_files[idx]? with
    | some stored =>
      simp only
      split <;> simp
    | none => simp
  | none =>
    simp only
    split <;> simp

theorem refreshLoop_append (pre rest : List DirEntry) :
    ∀ s : SearchManager, (refreshLoop s pre).1 = true →
      refreshLoop s (pre ++ rest) = refreshLoop (refreshLoop s pre).2 rest := by
  induction pre with
  | nil => intro s _; rfl
  | cons entry pre ih =>
    intro s h
    rw [List.cons_append, refreshLoop_cons s entry (pre ++ rest)]
    rw [refreshLoop_cons s entry pre] at h ⊢
    by_cases hstep : (refreshStep s entry).1 = true
    · simp only [hstep, if_true] at h ⊢
      exact ih _ h
    · simp [hstep] at h

theorem refreshStep_map (s : SearchManager) (entry : DirEntry) :
    (refreshStep s entry).2.m_filePathIndexMap = s.m_filePathIndexMap := by
  unfold refreshStep
  cases Map.find s.m_filePathIndexMap entry.path with
  | some idx =>
    simp only
    cases s.m_files[idx]? with
    | some stored =>
      simp only
      split <;> rfl
    | none => rfl
  | none =>
    simp only
    split <;> rfl

theorem refreshStep_indexed (s : SearchManager) (entry : DirEntry) (h : Indexed s) :
    Indexed (refreshStep s entry).2 := by
  unfold refreshStep
  cases hfind : Map.find s.m_filePathIndexMap entry.path with
  | some idx =>
    simp only
    cases hget : s.m_files[idx]? with
    | some stored =>
      simp only
      split
      · exact indexed_set s entry idx _ (getFileData_path entry) hfind h
      · exact h
    | none => exact h
  | none =>
    simp only
    split
    · exact h
    · exact indexed_push s _ h

theorem indexed_lt (s : SearchManager) (h : Indexed s) (p : String) (idx : Nat)
    (hp : Map.find s.m_filePathIndexMap p = some idx) : idx < s.m_files.length := by
  obtain ⟨f, hf, _⟩ := h p idx hp
  rcases Nat.lt_or_ge idx s.m_files.length with hlt | hge
  · exact hlt
  · rw [List.getElem?_eq_none hge] at hf
    cases hf

theorem refreshStep_frame (s : SearchManager) (entry : DirEntry) (h : Indexed s)
    (p : String) (idx : Nat) (hp : Map.find s.m_filePathIndexMap p = some idx)
    (hne : entry.path ≠ p) :
    (refreshStep s entry).2.m_files[idx]? = s.m_files[idx]? := by
  unfold refreshStep
  cases hfind : Map.find s.m_filePathIndexMap entry.path with
  | some i =>
    simp only
    cases hget : s.m_files[i]? with
    | some stored =>
      simp only
      split
      · have hi : i ≠ idx := by
          intro hi
          subst hi
          obtain ⟨f, hf, hfp⟩ := h p i hp
          obtain ⟨g, hg, hgp⟩ := h entry.path i hfind
          rw [hf] at hg
          have hfg : f = g := Option.some.inj hg
          apply hne
          rw [← hgp, ← hfg, hfp]
        simp only
        rw [List.getElem?_set_ne hi]
      · rfl
    | none => rfl
  | none =>
    simp only
    split
    · rfl
    · simp only
      rw [List.getElem?_append_left (indexed_lt s h p idx hp)]

theorem refreshLoop_frame (walk : List DirEntry) :
    ∀ s : SearchManager, Indexed s → ∀ (p : String) (idx : Nat),
      Map.find s.m_filePathIndexMap p = some idx → (∀ e ∈ walk, e.path ≠ p) →
      (refreshLoop s walk).2.m_files[idx]? = s.m_files[idx]? := by
  induction walk with
  | nil => intro s _ p idx _ _; rfl
  | cons entry rest ih =>
    intro s h p idx hp hne
    rw [refreshLoop_cons]
    have hstep := refreshStep_frame s entry h p idx hp (hne entry (List.mem_cons_self _ _))
    by_cases hgo : (refreshStep s entry).1 = true
    · simp only [hgo, if_true]
      rw [ih _ (refreshStep_indexed s entry h) p idx (by rw [refreshStep_map]; exact hp)
        (fun e he => hne e (List.mem_cons_of_mem _ he))]
      exact hstep
    · simp only [hgo]
      exact hstep

theorem getFileData_readable (entry : DirEntry) (t : Int)
    (hq : entry.typeQueryThrows = false) (ht : entry.lastWriteTime = some t) :
    getFileData entry =
      { fileID := entry.uninitID
        name := stem entry.path
        path := entry.path
        type :=
          if entry.isRegularFile then FileType.REGULAR_FILE
          else if entry.isDirectory then FileType.DIRECTORY
          else if entry.isSymlink then FileType.SYMBOLIC_LINK
          else FileType.MISC
        tag := ""
        modifiedTime := t } := by
  unfold getFileData
  simp [hq, ht]

theorem refreshStep_update (s : SearchManager) (entry : DirEntry) (idx : Nat)
    (stored : FileData) (hfind : Map.find s.m_filePathIndexMap entry.path = some idx)
    (hget : s.m_files[idx]? = some stored)
    (hne : (getFileData entry).modifiedTime ≠ stored.modifiedTime) :
    refreshStep s entry =
      (true,
        { s with
          m_files := s.m_files.set idx { getFileData entry with fileID := stored.fileID } }) := by
  unfold refreshStep
  simp [hfind, hget, hne]

/-- C4: in a catalog whose path index is consistent (`Indexed`, which holds in every state
that `LoadMetaData` and `Refresh` produce), when a `Refresh` reaches a readable walked item
whose path is already indexed and whose modification time differs from the stored one, then
after the `Refresh` the stored entry has the item's name, kind and modification time, and
keeps its id.  The walk lists every path once, as a directory iterator does. -/
theorem C4_refresh_updates_changed_entry (s : SearchManager) (hidx : Indexed s)
    (pre post : List DirEntry) (entry : DirEntry)
    (hnd : ((pre ++ entry :: post).map (fun e => e.path)).Nodup)
    (hpre : (Refresh s pre).1 = true)
    (idx : Nat) (stored : FileData) (t : Int)
    (hfind : Map.find s.m_filePathIndexMap entry.path = some idx)
    (hstored : s.m_files[idx]? = some stored)
    (hq : entry.typeQueryThrows = false) (ht : entry.lastWriteTime = some t)
    (hne : t ≠ stored.modifiedTime) :
    (Refresh s (pre ++ entry :: post)).2.m_files[idx]? =
      some
        { fileID := stored.fileID
          name := stem entry.path
          path := entry.path
          type :=
            if entry.isRegularFile then FileType.REGULAR_FILE
            else if entry.isDirectory then FileType.DIRECTORY
            else if entry.isSymlink then FileType.SYMBOLIC_LINK
            else FileType.MISC
          tag := ""
          modifiedTime := t } := by
  simp only [List.map_append, List.map_cons, List.nodup_append, List.nodup_cons,
    List.mem_map, not_exists, not_and, List.mem_cons] at hnd
  obtain ⟨_, ⟨hpost, _⟩, hdisj⟩ := hnd
  have hpre_ne : ∀ e ∈ pre, e.path ≠ entry.path := by
    intro e he heq
    exact hdisj (List.mem_map.mpr ⟨e, he, heq⟩) (List.mem_cons_self _ _)
  have hpost_ne : ∀ e ∈ post, e.path ≠ entry.path := fun e he heq => hpost e he heq
  unfold Refresh at hpre ⊢
  rw [refreshLoop_append pre (entry :: post) s hpre, refreshLoop_cons]
  have hidx1 : Indexed (refreshLoop s pre).2 := refreshLoop_indexed pre s hidx
  have hmap1 : (refreshLoop s pre).2.m_filePathIndexMap = s.m_filePathIndexMap :=
    refreshLoop_map pre s
  have hfind1 : Map.find (refreshLoop s pre).2.m_filePathIndexMap entry.path = some idx := by
    rw [hmap1]; exact hfind
  have hget1 : (refreshLoop s pre).2.m_files[idx]? = some stored := by
    rw [refreshLoop_frame pre s hidx entry.path idx hfind hpre_ne]; exact hstored
  have hdata := getFileData_readable entry t hq ht
  have hmt : (getFileData entry).modifiedTime ≠ stored.modifiedTime := by
    rw [hdata]; exact hne
  have hstep := refreshStep_update (refreshLoop s pre).2 entry idx stored hfind1 hget1 hmt
  have hidx2 : Indexed (refreshStep (refreshLoop s pre).2 entry).2 :=
    refreshStep_indexed _ entry hidx1
  have hfind2 :
      Map.find (refreshStep (refreshLoop s pre).2 entry).2.m_filePathIndexMap entry.path =
        some idx := by
    rw [refreshStep_map]; exact hfind1
  have hgo : (refreshStep (refreshLoop s pre).2 entry).1 = true := by rw [hstep]
  simp only [hgo, if_true]
  rw [refreshLoop_frame post _ hidx2 entry.path idx hfind2 hpost_ne, hstep]
  simp only
  rw [List.getElem?_set_self (indexed_lt _ hidx1 entry.path idx hfind1), hdata]

theorem C4_refresh_updates_changed_entry_witness :
    (Refresh sampleCatalog
        ([sampleEntry "d/z" 9] ++ sampleEntry "d/a" 5 :: [sampleEntry "d/c" 3])).2.m_files[0]? =
      some
        { fileID := 0, name := "a", path := "d/a", type := FileType.REGULAR_FILE, tag := "",
          modifiedTime := 5 } :=
  C4_refresh_updates_changed_entry sampleCatalog
    (catalogReachable_indexed _
      (CatalogReachable.refresh _ _ (CatalogReachable.scan _ _ _ _ (by decide))))
    [sampleEntry "d/z" 9] [sampleEntry "d/c" 3] (sampleEntry "d/a" 5) (by decide) (by decide)
    0
    { fileID := 0, name := "a", path := "d/a", type := FileType.REGULAR_FILE, tag := "",
      modifiedTime := 1 }
    5 (by decide) (by decide) rfl rfl (by decide)

/-! ## Move engine: the name given to a moved file -/

theorem digitChar_value : ∀ m, m < 10 → (Nat.digitChar m).toNat - 48 = m := by
  decide

theorem decodeDigits_toDigitsCore (fuel : Nat) :
    ∀ (n : Nat) (ds : List Char), n < fuel →
      decodeDigits (Nat.toDigitsCore 10 fuel n ds) 0 = decodeDigits ds n := by
  induction fuel with
  | zero => intro n ds h; omega
  | succ fuel ih =>
    intro n ds h
    rw [Nat.toDigitsCore]
    by_cases h0 : n / 10 = 0
    · simp only [h0, if_true]
      have hn : n % 10 = n := by omega
      simp only [decodeDigits, List.foldl_cons, Nat.mul_zero, Nat.zero_add]
      rw [digitChar_value (n % 10) (Nat.mod_lt _ (by decide)), hn]
    · simp only [h0, if_false]
      rw [ih (n / 10) _ (by omega)]
      simp only [decodeDigits, List.foldl_cons]
      rw [digitChar_value (n % 10) (Nat.mod_lt _ (by decide))]
      congr 1
      omega

theorem decodeDigits_repr (n : Nat) : decodeDigits (Nat.repr n).data 0 = n := by
  have h := decodeDigits_toDigitsCore (n + 1) n [] (by omega)
  simpa [Nat.repr, Nat.toDigits, List.asString, decodeDigits] using h

theorem repr_injective (a b : Nat) (h : Nat.repr a = Nat.repr b) : a = b := by
  have ha := decodeDigits_repr a
  rw [h, decodeDigits_repr b] at ha
  exact ha.symm

theorem candidateName_injective (st ext : String) (a b : Nat)
    (h : candidateName st ext (a : Int) = candidateName st ext (b : Int)) : a = b := by
  unfold candidateName at h
  have ha : toString ((a : Nat) : Int) = Nat.repr a := rfl
  have hb : toString ((b : Nat) : Int) = Nat.repr b := rfl
  rw [ha, hb] at h
  have hd := congrArg String.data h
  simp only [String.data_append, List.append_assoc] at hd
  have h1 := List.append_cancel_left (List.append_cancel_left hd)
  have h2 := List.append_cancel_right h1
  apply repr_injective
  exact String.ext h2

theorem renameLoop_finds (present : List String) (st ext : String) :
    ∀ (d c : Nat) (dest : String) (fuel : Nat), dest ∈ present →
      (∀ j : Nat, c ≤ j → j < c + d → candidateName st ext (j : Int) ∈ present) →
      candidateName st ext ((c + d : Nat) : Int) ∉ present →
      c + d + 1 < 2147483648 → d + 2 ≤ fuel →
      renameLoop (fun n => decide (n ∈ present)) st ext fuel (c : Int) dest =
        some (candidateName st ext ((c + d : Nat) : Int)) := by
  intro d
  induction d with
  | zero =>
    intro c dest fuel hdest _ hfree _ hfuel
    obtain ⟨f, rfl⟩ : ∃ f, fuel = f + 2 := ⟨fuel - 2, by omega⟩
    rw [renameLoop]
    simp only [hdest, decide_True, if_true]
    rw [renameLoop]
    simp only [Nat.add_zero] at hfree
    simp [hfree]
  | succ d ih =>
    intro c dest fuel hdest hocc hfree hbound hfuel
    obtain ⟨f, rfl⟩ : ∃ f, fuel = f + 1 := ⟨fuel - 1, by omega⟩
    rw [renameLoop]
    simp only [hdest, decide_True, if_true]
    have hwrap : wrapInt32 ((c : Int) + 1) = ((c + 1 : Nat) : Int) := by
      rw [wrapInt32_of_small _ (by omega) (by omega)]
      push_cast
      rfl
    rw [hwrap]
    have hcd : c + 1 + d = c + (d + 1) := by omega
    have hres := ih (c + 1) (candidateName st ext (c : Int)) f
      (hocc c (le_refl _) (by omega))
      (fun j hj1 hj2 => hocc j (by omega) (by omega))
      (by rw [hcd]; exact hfree) (by omega) (by omega)
    rw [hres, hcd]

theorem exists_free_candidate (present : List String) (st ext : String) :
    ∃ k : Nat, (1 ≤ k ∧ k ≤ present.length + 1) ∧
      candidateName st ext (k : Int) ∉ present := by
  by_contra hall
  push_neg at hall
  have hsub : (List.range (present.length + 1)).map
      (fun i : Nat => candidateName st ext ((i + 1 : Nat) : Int)) ⊆ present := by
    intro x hx
    obtain ⟨i, hi, rfl⟩ := List.mem_map.mp hx
    rw [List.mem_range] at hi
    exact hall (i + 1) ⟨by omega, by omega⟩
  have hnd : ((List.range (present.length + 1)).map
      (fun i : Nat => candidateName st ext ((i + 1 : Nat) : Int))).Nodup := by
    apply List.Nodup.map _ (List.nodup_range _)
    intro a b hab
    have := candidateName_injective st ext (a + 1) (b + 1) hab
    omega
  have hlen := (List.subperm_of_subset hnd hsub).length_le
  simp at hlen

/-- C5: for every file name and every finite set `present` of names in the destination
directory (fewer than 2^31 - 2 of them, so that the `int` counter does not overflow), the
loop of `MoveSingleFile` ends and the name it chooses is not in `present`; it is the file
name itself when that is free, and otherwise `stem_k.ext` for the least `k ≥ 1` whose name
is free.  Moving `a/report.txt` and then `b/report.txt` into the empty directory `dest`
leaves `dest/report.txt` and `dest/report_1.txt`. -/
theorem C5_destination_name_is_free (present : List String) (fileName : String)
    (hsize : present.length < 2147483646) :
    (∃ name : String,
      (∀ fuel : Nat, present.length + 2 ≤ fuel →
        destinationName (fun n => decide (n ∈ present)) fileName fuel = some name) ∧
      name ∉ present ∧
      (fileName ∉ present → name = fileName) ∧
      (fileName ∈ present →
        ∃ k : Nat, 1 ≤ k ∧ k ≤ present.length + 1 ∧
          name = stem fileName ++ "_" ++ toString k ++ extension fileName ∧
          ∀ j : Nat, 1 ≤ j → j < k →
            stem fileName ++ "_" ++ toString j ++ extension fileName ∈ present)) ∧
    (MoveSingleFile 2 okMoveEnv { paths := ["a/report.txt", "b/report.txt", "dest"] }
        { fileID := 0, name := "report", path := "a/report.txt",
          type := FileType.REGULAR_FILE, tag := "", modifiedTime := 0 } "dest").bind
      (fun r => MoveSingleFile 2 okMoveEnv r.2
        { fileID := 1, name := "report", path := "b/report.txt",
          type := FileType.REGULAR_FILE, tag := "", modifiedTime := 0 } "dest") =
      some (true, { paths := ["dest", "dest/report.txt", "dest/report_1.txt"] }) := by
  refine ⟨?_, by decide⟩
  by_cases hin : fileName ∈ present
  · have hex : ∃ k : Nat, 1 ≤ k ∧
        candidateName (stem fileName) (extension fileName) (k : Int) ∉ present := by
      obtain ⟨k, ⟨hk1, _⟩, hk⟩ :=
        exists_free_candidate present (stem fileName) (extension fileName)
      exact ⟨k, hk1, hk⟩
    obtain ⟨kb, ⟨hkb1, hkb2⟩, hkb⟩ :=
      exists_free_candidate present (stem fileName) (extension fileName)
    have hk := Nat.find_spec hex
    have hmin : ∀ j : Nat, 1 ≤ j → j < Nat.find hex →
        candidateName (stem fileName) (extension fileName) (j : Int) ∈ present := by
      intro j hj1 hj2
      by_contra hj
      exact Nat.find_min hex hj2 ⟨hj1, hj⟩
    have hle : Nat.find hex ≤ present.length + 1 :=
      le_trans (Nat.find_min' hex ⟨hkb1, hkb⟩) hkb2
    refine ⟨candidateName (stem fileName) (extension fileName) ((Nat.find hex : Nat) : Int),
      ?_, hk.2, fun h => absurd hin h, fun _ => ⟨Nat.find hex, hk.1, hle, rfl, hmin⟩⟩
    intro fuel hfuel
    unfold destinationName
    simp only [hin, decide_True, if_true]
    have h1 : 1 + (Nat.find hex - 1) = Nat.find hex := by omega
    have hres := renameLoop_finds present (stem fileName) (extension fileName)
      (Nat.find hex - 1) 1 fileName fuel hin
      (fun j hj1 hj2 => hmin j hj1 (by omega))
      (by rw [h1]; exact hk.2) (by omega) (by omega)
    rw [h1] at hres
    exact hres
  · refine ⟨fileName, ?_, hin, fun _ => rfl, fun h => absurd h hin⟩
    intro fuel _
    unfold destinationName
    simp [hin]

theorem C5_destination_name_is_free_witness :
    ∃ name : String,
      (∀ fuel : Nat, ["report.txt", "report_1.txt"].length + 2 ≤ fuel →
        destinationName (fun n => decide (n ∈ ["report.txt", "report_1.txt"])) "report.txt"
          fuel = some name) ∧
      name ∉ ["report.txt", "report_1.txt"] :=
  have h := (C5_destination_name_is_free ["report.txt", "report_1.txt"] "report.txt"
    (by decide)).1
  h.elim fun name hn => ⟨name, hn.1, hn.2.1⟩

/-! ## Tag registry: the map of tags -/

theorem Map.find_eq_none_iff {V : Type} (m : List (String × V)) (k : String) :
    Map.find m k = none ↔ k ∉ Map.keys m := by
  induction m with
  | nil => simp [Map.find, Map.keys]
  | cons x xs ih =>
    obtain ⟨a, b⟩ := x
    by_cases h : a = k
    · simp [Map.find, Map.keys, h]
    · have hk : ¬ k = a := fun e => h e.symm
      simp only [Map.find, h, if_false, ih, Map.keys, List.map_cons, List.mem_cons, hk,
        false_or]

theorem Map.find_some_mem {V : Type} (m : List (String × V)) (k : String) (v : V)
    (h : Map.find m k = some v) : (k, v) ∈ m := by
  induction m with
  | nil => simp [Map.find] at h
  | cons x xs ih =>
    obtain ⟨a, b⟩ := x
    by_cases hk : a = k
    · simp only [Map.find, hk, if_true, Option.some.injEq] at h
      simp [hk, h]
    · simp only [Map.find, hk, if_false] at h
      exact List.mem_cons_of_mem _ (ih h)

theorem Map.find_append {V : Type} (m n : List (String × V)) (k : String) :
    Map.find (m ++ n) k = (Map.find m k).orElse (fun _ => Map.find n k) := by
  induction m with
  | nil => simp [Map.find]
  | cons x xs ih =>
    obtain ⟨a, b⟩ := x
    by_cases hk : a = k
    · simp [Map.find, hk]
    · simp [Map.find, hk, ih]

theorem Map.find_emplace_self {V : Type} (m : List (String × V)) (k : String) (v : V)
    (h : Map.find m k = none) : Map.find (Map.emplace m k v) k = some v := by
  unfold Map.emplace
  rw [h]
  simp [Map.find_append, h, Map.find]

theorem Map.find_modify {V : Type} (m : List (String × V)) (k : String) (f : V → V) :
    Map.find (Map.modify m k f) k = (Map.find m k).map f := by
  induction m with
  | nil => simp [Map.find, Map.modify]
  | cons x xs ih =>
    obtain ⟨a, b⟩ := x
    have hcons : Map.modify ((a, b) :: xs) k f =
        (if a = k then (a, f b) else (a, b)) :: Map.modify xs k f := rfl
    rw [hcons]
    by_cases hk : a = k
    · rw [if_pos hk]
      simp only [hk, if_true, Map.find, Option.map_some']
    · rw [if_neg hk]
      simp only [hk, if_false, Map.find, ih]

theorem Map.keys_modify {V : Type} (m : List (String × V)) (k : String) (f : V → V) :
    Map.keys (Map.modify m k f) = Map.keys m := by
  unfold Map.keys Map.modify
  rw [List.map_map]
  apply List.map_congr_left
  intro p _
  by_cases h : p.1 = k <;> simp [h]

theorem Map.modify_idem {V : Type} (m : List (String × V)) (k : String) (f : V → V)
    (hf : ∀ v, f (f v) = f v) : Map.modify (Map.modify m k f) k f = Map.modify m k f := by
  unfold Map.modify
  rw [List.map_map]
  apply List.map_congr_left
  intro p _
  by_cases h : p.1 = k <;> simp [h, hf]

theorem Map.keys_erase_nodup {V : Type} (m : List (String × V)) (k : String)
    (h : (Map.keys m).Nodup) : (Map.keys (Map.erase m k)).Nodup := by
  unfold Map.keys Map.erase at *
  exact (List.Nodup.sublist (List.Sublist.map _ (List.filter_sublist m)) h)

theorem Map.keys_emplace_nodup {V : Type} (m : List (String × V)) (k : String) (v : V)
    (h : (Map.keys m).Nodup) : (Map.keys (Map.emplace m k v)).Nodup := by
  unfold Map.emplace
  cases hfind : Map.find m k with
  | some _ => exact h
  | none =>
    have hk := (Map.find_eq_none_iff m k).mp hfind
    unfold Map.keys at *
    simp only [List.map_append, List.map_cons, List.map_nil]
    rw [List.nodup_append]
    refine ⟨h, List.nodup_singleton k, ?_⟩
    intro a ha hb
    simp only [List.mem_singleton] at hb
    subst hb
    exact hk ha

theorem push_unique_index_nodup (vec : List Nat) (idx : Nat) (h : vec.Nodup) :
    (push_unique_index vec idx).Nodup := by
  unfold push_unique_index
  by_cases hin : idx ∈ vec
  · simp [hin, h]
  · simp only [hin, if_false]
    rw [List.nodup_append]
    refine ⟨h, List.nodup_singleton idx, ?_⟩
    intro a ha hb
    simp only [List.mem_singleton] at hb
    subst hb
    exact hin ha

theorem push_unique_index_idem (vec : List Nat) (idx : Nat) :
    push_unique_index (push_unique_index vec idx) idx = push_unique_index vec idx := by
  unfold push_unique_index
  by_cases hin : idx ∈ vec <;> simp [hin]

theorem push_unique_index_count (vec : List Nat) (idx : Nat) (h : vec.Nodup) :
    (push_unique_index vec idx).count idx = 1 := by
  unfold push_unique_index
  by_cases hin : idx ∈ vec
  · simp only [hin, if_true]
    exact List.count_eq_one_of_mem h hin
  · simp only [hin, if_false]
    rw [List.count_append, List.count_eq_zero_of_not_mem hin]
    simp

theorem SaveTagsToJson_tags (env : SaveEnv) (s : TagManager) :
    (SaveTagsToJson env s).2.tags = s.tags := by
  unfold SaveTagsToJson
  cases env.tmpOpens <;> cases env.writeOk <;> cases env.renameOk <;> cases env.removeOk <;>
    cases env.retryOk <;> rfl

theorem SaveTagsToJson_succeeds (env : SaveEnv) (s : TagManager) :
    (SaveTagsToJson env s).1 = env.succeeds := by
  unfold SaveTagsToJson SaveEnv.succeeds
  cases env.tmpOpens <;> cases env.writeOk <;> cases env.renameOk <;> cases env.removeOk <;>
    cases env.retryOk <;> rfl

theorem tagListWF_emplace (m : List (String × TagInfo)) (k d : String) (h : TagListWF m) :
    TagListWF (Map.emplace m k { destination := d, fileIndices := [] }) := by
  refine ⟨Map.keys_emplace_nodup m k _ h.1, ?_⟩
  unfold Map.emplace
  cases Map.find m k with
  | some _ => exact h.2
  | none =>
    intro p hp
    rcases List.mem_append.mp hp with hp | hp
    · exact h.2 p hp
    · simp only [List.mem_singleton] at hp
      subst hp
      exact List.nodup_nil

theorem tagListWF_erase (m : List (String × TagInfo)) (k : String) (h : TagListWF m) :
    TagListWF (Map.erase m k) := by
  refine ⟨Map.keys_erase_nodup m k h.1, ?_⟩
  intro p hp
  exact h.2 p (List.mem_of_mem_filter hp)

theorem tagListWF_modify (m : List (String × TagInfo)) (k : String) (idx : Nat)
    (h : TagListWF m) :
    TagListWF (Map.modify m k
      (fun info => { info with fileIndices := push_unique_index info.fileIndices idx })) := by
  refine ⟨by rw [Map.keys_modify]; exact h.1, ?_⟩
  intro p hp
  unfold Map.modify at hp
  obtain ⟨q, hq, rfl⟩ := List.mem_map.mp hp
  by_cases hk : q.1 = k
  · simp only [hk, if_true]
    exact push_unique_index_nodup _ _ (h.2 q hq)
  · simp only [hk, if_false]
    exact h.2 q hq

theorem tagListWF_removeLoop (idx : Nat) (m : List (String × TagInfo)) (h : TagListWF m) :
    TagListWF (removeLoop idx m).2 := by
  induction m with
  | nil => exact h
  | cons x xs ih =>
    obtain ⟨k, info⟩ := x
    obtain ⟨hk, hm⟩ := h
    unfold Map.keys at hk
    simp only [List.map_cons, List.nodup_cons] at hk
    have ihx := ih ⟨hk.2, fun p hp => hm p (List.mem_cons_of_mem _ hp)⟩
    have hkeys : ∀ l : List (String × TagInfo),
        Map.keys (removeLoop idx l).2 = Map.keys l := by
      intro l
      induction l with
      | nil => rfl
      | cons y ys ihy =>
        obtain ⟨a, b⟩ := y
        unfold Map.keys at ihy ⊢
        simp only [removeLoop, List.map_cons, ihy]
    constructor
    · rw [hkeys]
      unfold Map.keys
      simp only [List.map_cons, List.nodup_cons]
      exact hk
    · intro p hp
      simp only [removeLoop, List.mem_cons] at hp
      rcases hp with rfl | hp
      · exact List.Nodup.filter _ (hm (k, info) (List.mem_cons_self _ _))
      · exact ihx.2 p hp

theorem tagListWF_foldl_emplace (entries : List (String × Option String)) :
    ∀ m : List (String × TagInfo), TagListWF m →
      TagListWF (entries.foldl
        (fun m e => Map.emplace m e.1 { destination := e.2.getD "", fileIndices := [] }) m) := by
  induction entries with
  | nil => intro m h; exact h
  | cons e es ih =>
    intro m h
    simp only [List.foldl_cons]
    exact ih _ (tagListWF_emplace m e.1 _ h)

theorem tagsWF_save (env : SaveEnv) (s : TagManager) (h : TagsWF s) :
    TagsWF (SaveTagsToJson env s).2 := by
  unfold TagsWF
  rw [SaveTagsToJson_tags]
  exact h

theorem CreateTag_of_some (env : SaveEnv) (s : TagManager) (tagName : String) (v : TagInfo)
    (h : Map.find s.tags tagName = some v) : CreateTag env s tagName = (false, s) := by
  unfold CreateTag
  simp only [NormalizeTag, h]

theorem CreateTag_of_none (env : SaveEnv) (s : TagManager) (tagName : String)
    (h : Map.find s.tags tagName = none) :
    CreateTag env s tagName =
      SaveTagsToJson env
        ⟨Map.emplace s.tags tagName { destination := "", fileIndices := [] }, s.tagsJson⟩ := by
  unfold CreateTag
  simp only [NormalizeTag, h]

theorem DeleteTag_of_none (env : SaveEnv) (s : TagManager) (tagName : String)
    (h : Map.find s.tags tagName = none) : DeleteTag env s tagName = (false, s) := by
  unfold DeleteTag
  simp only [NormalizeTag, h]

theorem DeleteTag_of_some (env : SaveEnv) (s : TagManager) (tagName : String) (v : TagInfo)
    (h : Map.find s.tags tagName = some v) :
    DeleteTag env s tagName = SaveTagsToJson env ⟨Map.erase s.tags tagName, s.tagsJson⟩ := by
  unfold DeleteTag
  simp only [NormalizeTag, h]

theorem AssignTagByIndex_of_some (env : SaveEnv) (s : TagManager) (idx : Nat)
    (tagName : String) (v : TagInfo) (h : Map.find s.tags tagName = some v) :
    AssignTagByIndex env s idx tagName =
      (true,
        ⟨Map.modify s.tags tagName
          (fun info => { info with fileIndices := push_unique_index info.fileIndices idx }),
          s.tagsJson⟩) := by
  unfold AssignTagByIndex
  simp only [NormalizeTag, h]

theorem AssignTagByIndex_of_none_saved (env : SaveEnv) (s : TagManager) (idx : Nat)
    (tagName : String) (h : Map.find s.tags tagName = none) (henv : env.succeeds = true) :
    AssignTagByIndex env s idx tagName =
      (true,
        ⟨Map.modify (Map.emplace s.tags tagName { destination := "", fileIndices := [] })
          tagName
          (fun info => { info with fileIndices := push_unique_index info.fileIndices idx }),
          (SaveTagsToJson env
            ⟨Map.emplace s.tags tagName { destination := "", fileIndices := [] },
              s.tagsJson⟩).2.tagsJson⟩) := by
  unfold AssignTagByIndex
  simp only [NormalizeTag, h, SaveTagsToJson_succeeds, henv, SaveTagsToJson_tags]
  rfl

theorem AssignTagByIndex_of_none_failed (env : SaveEnv) (s : TagManager) (idx : Nat)
    (tagName : String) (h : Map.find s.tags tagName = none) (henv : env.succeeds = false) :
    AssignTagByIndex env s idx tagName =
      (false,
        ⟨Map.erase (Map.emplace s.tags tagName { destination := "", fileIndices := [] })
          tagName,
          (SaveTagsToJson env
            ⟨Map.emplace s.tags tagName { destination := "", fileIndices := [] },
              s.tagsJson⟩).2.tagsJson⟩) := by
  unfold AssignTagByIndex
  simp only [NormalizeTag, h, SaveTagsToJson_succeeds, henv, SaveTagsToJson_tags]
  rfl

theorem tagsWF_createTag (env : SaveEnv) (s : TagManager) (tagName : String) (h : TagsWF s) :
    TagsWF (CreateTag env s tagName).2 := by
  cases hfind : Map.find s.tags tagName with
  | some v =>
    rw [CreateTag_of_some env s tagName v hfind]
    exact h
  | none =>
    rw [CreateTag_of_none env s tagName hfind]
    exact tagsWF_save env _ (tagListWF_emplace s.tags _ _ h)

theorem tagsWF_deleteTag (env : SaveEnv) (s : TagManager) (tagName : String) (h : TagsWF s) :
    TagsWF (DeleteTag env s tagName).2 := by
  cases hfind : Map.find s.tags tagName with
  | none =>
    rw [DeleteTag_of_none env s tagName hfind]
    exact h
  | some v =>
    rw [DeleteTag_of_some env s tagName v hfind]
    exact tagsWF_save env _ (tagListWF_erase s.tags _ h)

theorem tagsWF_assignTagByIndex (env : SaveEnv) (s : TagManager) (idx : Nat)
    (tagName : String) (h : TagsWF s) : TagsWF (AssignTagByIndex env s idx tagName).2 := by
  cases hfind : Map.find s.tags tagName with
  | some v =>
    rw [AssignTagByIndex_of_some env s idx tagName v hfind]
    exact tagListWF_modify s.tags _ idx h
  | none =>
    cases henv : env.succeeds with
    | true =>
      rw [AssignTagByIndex_of_none_saved env s idx tagName hfind henv]
      exact tagListWF_modify _ _ idx (tagListWF_emplace s.tags _ _ h)
    | false =>
      rw [AssignTagByIndex_of_none_failed env s idx tagName hfind henv]
      exact tagListWF_erase _ _ (tagListWF_emplace s.tags _ _ h)

theorem tagsWF_removeTagByIndex (s : TagManager) (idx : Nat) (h : TagsWF s) :
    TagsWF (RemoveTagByIndex s idx).2 :=
  tagListWF_removeLoop idx s.tags h

theorem tagsWF_new (env : SaveEnv) (store : StoreFile) : TagsWF (TagManager.new env store) := by
  have hnil : TagListWF ([] : List (String × TagInfo)) :=
    ⟨List.nodup_nil, fun p hp => absurd hp (List.not_mem_nil p)⟩
  unfold TagManager.new LoadTagsFromJson
  cases store with
  | missing =>
    simp only
    split <;> exact hnil
  | malformed => exact hnil
  | noTags => exact tagsWF_save env _ hnil
  | tags entries => exact tagListWF_foldl_emplace entries [] hnil

theorem tagReachable_wf (s : TagManager) (h : TagReachable s) : TagsWF s := by
  induction h with
  | init env store => exact tagsWF_new env store
  | createTag env s tagName _ ih => exact tagsWF_createTag env s tagName ih
  | deleteTag env s tagName _ ih => exact tagsWF_deleteTag env s tagName ih
  | assignTagByIndex env s idx tagName _ ih => exact tagsWF_assignTagByIndex env s idx tagName ih
  | removeTagByIndex s idx _ ih => exact tagsWF_removeTagByIndex s idx ih
  | assignTag env sm s filePath tagName _ ih => exact ih
  | removeTag sm s filePath _ ih => exact ih

/-! ## Tag registry: creating and assigning -/

theorem Map.count_keys_of_find {V : Type} (m : List (String × V)) (k : String) (v : V)
    (hnd : (Map.keys m).Nodup) (h : Map.find m k = some v) : (Map.keys m).count k = 1 := by
  apply List.count_eq_one_of_mem hnd
  by_contra hk
  rw [(Map.find_eq_none_iff m k).mpr hk] at h
  cases h

theorem createTag_then_present (env : SaveEnv) (s : TagManager) (x : String) :
    ∃ v, Map.find (CreateTag env s x).2.tags x = some v := by
  cases hfind : Map.find s.tags x with
  | some v =>
    rw [CreateTag_of_some env s x v hfind]
    exact ⟨v, hfind⟩
  | none =>
    rw [CreateTag_of_none env s x hfind, SaveTagsToJson_tags]
    exact ⟨_, Map.find_emplace_self s.tags x _ hfind⟩

/-- C6: in every registry state, `CreateTag(x)` for a name that already exists returns
false and changes nothing, and the registry holds exactly one tag named `x`; hence a second
`CreateTag(x)` right after a first one returns false (whatever the first one returned) and
leaves exactly one tag named `x`. -/
theorem C6_create_existing_tag_fails (s : TagManager) (hs : TagReachable s)
    (env env' : SaveEnv) (x : String) :
    (∀ info, Map.find s.tags x = some info →
      CreateTag env s x = (false, s) ∧ (Map.keys s.tags).count x = 1) ∧
    CreateTag env' (CreateTag env s x).2 x = (false, (CreateTag env s x).2) ∧
    (Map.keys (CreateTag env s x).2.tags).count x = 1 := by
  refine ⟨?_, ?_, ?_⟩
  · intro info hfind
    exact ⟨CreateTag_of_some env s x info hfind,
      Map.count_keys_of_find s.tags x info (tagReachable_wf s hs).1 hfind⟩
  · obtain ⟨v, hv⟩ := createTag_then_present env s x
    exact CreateTag_of_some env' _ x v hv
  · obtain ⟨v, hv⟩ := createTag_then_present env s x
    exact Map.count_keys_of_find _ x v
      (tagReachable_wf _ (TagReachable.createTag env s x hs)).1 hv

theorem C6_create_existing_tag_fails_witness :
    TagReachable sampleRegistry ∧
      CreateTag failEnv (CreateTag okEnv sampleRegistry "x").2 "x" =
        (false, (CreateTag okEnv sampleRegistry "x").2) ∧
      (Map.keys (CreateTag okEnv sampleRegistry "x").2.tags).count "x" = 1 :=
  have hr : TagReachable sampleRegistry :=
    TagReachable.assignTagByIndex _ _ _ _ (TagReachable.init _ _)
  ⟨hr, (C6_create_existing_tag_fails sampleRegistry hr okEnv failEnv "x").2⟩

/-- C7: in every reachable registry state, when persisting succeeds, `AssignTagByIndex(id,
t)` returns true and afterwards tag `t` exists with `id` occurring exactly once among its
members; a tag that did not exist before is created with an empty destination and `id` as
its only member; and a second call with the same arguments changes nothing. -/
theorem C7_assign_by_index_adds_once (s : TagManager) (hs : TagReachable s)
    (env env' : SaveEnv) (id : Nat) (t : String) (henv : env.succeeds = true) :
    (AssignTagByIndex env s id t).1 = true ∧
    (∃ info, Map.find (AssignTagByIndex env s id t).2.tags t = some info ∧
      info.fileIndices.count id = 1 ∧
      (Map.find s.tags t = none → info = { destination := "", fileIndices := [id] }) ∧
      (∀ old, Map.find s.tags t = some old → info.destination = old.destination)) ∧
    AssignTagByIndex env' (AssignTagByIndex env s id t).2 id t =
      (true, (AssignTagByIndex env s id t).2) := by
  have hwf := tagReachable_wf s hs
  have hidem : ∀ v : TagInfo,
      ({ ({ v with fileIndices := push_unique_index v.fileIndices id } : TagInfo) with
          fileIndices := push_unique_index
            ({ v with fileIndices := push_unique_index v.fileIndices id } : TagInfo).fileIndices
            id } : TagInfo) =
        { v with fileIndices := push_unique_index v.fileIndices id } := by
    intro v
    simp [push_unique_index_idem]
  cases hfind : Map.find s.tags t with
  | some old =>
    rw [AssignTagByIndex_of_some env s id t old hfind]
    have hfind2 := Map.find_modify s.tags t
      (fun info => { info with fileIndices := push_unique_index info.fileIndices id })
    rw [hfind] at hfind2
    simp only [Option.map_some'] at hfind2
    refine ⟨rfl, ⟨_, hfind2, ?_, (fun h => by cases h), ?_⟩, ?_⟩
    · exact push_unique_index_count _ _ (hwf.2 _ (Map.find_some_mem s.tags t old hfind))
    · intro old' hold'
      cases hold'
      rfl
    · rw [AssignTagByIndex_of_some env' _ id t _ hfind2]
      simp only
      rw [Map.modify_idem _ _ _ hidem]
  | none =>
    rw [AssignTagByIndex_of_none_saved env s id t hfind henv]
    have hfind2 := Map.find_modify
      (Map.emplace s.tags t { destination := "", fileIndices := [] }) t
      (fun info => { info with fileIndices := push_unique_index info.fileIndices id })
    rw [Map.find_emplace_self s.tags t _ hfind] at hfind2
    simp only [Option.map_some'] at hfind2
    refine ⟨rfl, ⟨_, hfind2, ?_, (fun _ => ?_), (fun old hold => by cases hold)⟩, ?_⟩
    · simp [push_unique_index]
    · simp [push_unique_index]
    · rw [AssignTagByIndex_of_some env' _ id t _ hfind2]
      simp only
      rw [Map.modify_idem _ _ _ hidem]

theorem C7_assign_by_index_adds_once_witness :
    TagReachable sampleRegistry ∧ okEnv.succeeds = true ∧
      (AssignTagByIndex okEnv sampleRegistry 3 "new").1 = true ∧
      AssignTagByIndex failEnv (AssignTagByIndex okEnv sampleRegistry 3 "new").2 3 "new" =
        (true, (AssignTagByIndex okEnv sampleRegistry 3 "new").2) :=
  have hr : TagReachable sampleRegistry :=
    TagReachable.assignTagByIndex _ _ _ _ (TagReachable.init _ _)
  have h := C7_assign_by_index_adds_once sampleRegistry hr okEnv failEnv 3 "new" rfl
  ⟨hr, rfl, h.1, h.2.2⟩

/-! ## Tag registry: resolving paths and members through the catalog -/

theorem getFilesByTag_nil (searchManager : SearchManager) (s : TagManager)
    (tagName : String) : GetFilesByTag searchManager s tagName = [] := by
  unfold GetFilesByTag
  cases Map.find s.tags (NormalizeTag tagName) with
  | none => rfl
  | some info => simp

/-- C8 (code evaluated): `AssignTag` returns false and changes nothing for every path,
because `ResolveFileIndex` never resolves; in particular for the path `d/a`, which
`FindFileByPath` finds in the sample catalog. -/
theorem C8_assign_tag_never_resolves :
    (∀ (env : SaveEnv) (searchManager : SearchManager) (s : TagManager)
        (filePath tagName : String),
        AssignTag env searchManager s filePath tagName = (false, s)) ∧
      FindFileByPath sampleCatalog "d/a" =
        some
          { fileID := 0, name := "a", path := "d/a", type := FileType.REGULAR_FILE,
            tag := "", modifiedTime := 1 } ∧
      AssignTag okEnv sampleCatalog sampleRegistry "d/a" "t" = (false, sampleRegistry) := by
  refine ⟨fun _ _ _ _ _ => rfl, by decide, rfl⟩

/-- C9 (code evaluated): `GetFilesByTag` returns the empty list for every tag; in
particular for tag `t` of the sample registry, whose member 0 is the id of an entry of the
sample catalog. -/
theorem C9_files_by_tag_always_empty :
    (∀ (searchManager : SearchManager) (s : TagManager) (tagName : String),
        GetFilesByTag searchManager s tagName = []) ∧
      Map.find (GetTagMap sampleRegistry) "t" = some [0] ∧
      FindFileByID sampleCatalog 0 =
        some
          { fileID := 0, name := "a", path := "d/a", type := FileType.REGULAR_FILE,
            tag := "", modifiedTime := 1 } ∧
      GetFilesByTag sampleCatalog sampleRegistry "t" = [] := by
  exact ⟨getFilesByTag_nil, by decide, by decide, by decide⟩

/-! ## Move engine: counting moved files -/

theorem moveFilesByTag_count (fuel : Nat) (env : MoveEnv) (searchManager : SearchManager)
    (tagManager : TagManager) (fs : FileSystem) (tagName : String) (r : Nat × FileSystem)
    (h : MoveFilesByTag fuel env searchManager tagManager fs tagName = Outcome.done r) :
    r.1 = 0 := by
  unfold MoveFilesByTag at h
  rw [getFilesByTag_nil] at h
  cases hfind : Map.find (GetTagMap tagManager) tagName with
  | none =>
    simp only [hfind, Outcome.done.injEq] at h
    rw [← h]
  | some v =>
    simp only [hfind] at h
    cases hstore : tagManager.tagsJson with
    | missing =>
      simp only [hstore, Outcome.done.injEq] at h
      rw [← h]
    | malformed => simp [hstore] at h
    | noTags =>
      simp only [hstore, Outcome.done.injEq] at h
      rw [← h]
    | tags entries =>
      simp only [hstore] at h
      cases hdest : Map.find entries tagName with
      | none =>
        simp only [hdest, Outcome.done.injEq] at h
        rw [← h]
      | some d =>
        cases d with
        | none => simp [hdest] at h
        | some destination =>
          simp only [hdest, moveLoop, Outcome.done.injEq] at h
          rw [← h]

theorem moveAllLoop_count (fuel : Nat) (env : MoveEnv) (searchManager : SearchManager)
    (tagManager : TagManager) (tagMap : List (String × List Nat)) :
    ∀ (fs : FileSystem) (movedCount : Nat) (r : Nat × FileSystem),
      moveAllLoop fuel env searchManager tagManager fs movedCount tagMap = Outcome.done r →
      r.1 = movedCount := by
  induction tagMap with
  | nil =>
    intro fs movedCount r h
    simp only [moveAllLoop, Outcome.done.injEq] at h
    rw [← h]
  | cons x xs ih =>
    intro fs movedCount r h
    obtain ⟨tagName, members⟩ := x
    rw [moveAllLoop] at h
    cases hmove : MoveFilesByTag fuel env searchManager tagManager fs tagName with
    | done q =>
      obtain ⟨n, fs1⟩ := q
      have hn : n = 0 :=
        moveFilesByTag_count fuel env searchManager tagManager fs tagName (n, fs1) hmove
      simp only [hmove] at h
      have := ih fs1 (movedCount + n) r h
      omega
    | uncaught => simp [hmove] at h
    | outOfFuel => simp [hmove] at h

/-- C10 (code evaluated): whenever `MoveAllTaggedFiles` returns, the count is 0, because
`GetFilesByTag` hands it no file.  In particular, with tag `t` having destination `sorted`
and member 0, the id of the catalog entry `d/a` that exists on disk, and every file
operation succeeding, it returns 0 and leaves `d/a` where it was. -/
theorem C10_move_all_counts_zero :
    (∀ (fuel : Nat) (env : MoveEnv) (searchManager : SearchManager) (tagManager : TagManager)
        (fs : FileSystem) (r : Nat × FileSystem),
        MoveAllTaggedFiles fuel env searchManager tagManager fs = Outcome.done r → r.1 = 0) ∧
      Map.find sampleRegistry.tags "t" = some { destination := "sorted", fileIndices := [0] } ∧
      sampleRegistry.tagsJson = StoreFile.tags [("t", some "sorted")] ∧
      (FindFileByID sampleCatalog 0).map (fun f => f.path) = some "d/a" ∧
      MoveAllTaggedFiles 4 okMoveEnv sampleCatalog sampleRegistry { paths := ["d/a", "d/b"] } =
        Outcome.done (0, { paths := ["d/a", "d/b", "sorted"] }) := by
  refine ⟨?_, by decide, by decide, by decide, by decide⟩
  intro fuel env sm tm fs r h
  exact moveAllLoop_count fuel env sm tm _ fs 0 r h

/-! ## Catalog: what a refresh keeps, finds and reports -/

theorem catalogBuilt_indexed (s : SearchManager) (h : CatalogBuilt s) : Indexed s := by
  induction h with
  | new mode =>
    intro p i hp
    simp [SearchManager.new, Map.find] at hp
  | load s path mode walk _ _ =>
    apply loadLoop_indexed
    intro p i hp
    simp [Map.find] at hp
  | refresh s walk _ ih => exact refreshLoop_indexed walk s ih

theorem keepsEntries_refl (s : SearchManager) : KeepsEntries s s :=
  ⟨le_refl _, fun _ f hf => ⟨f, hf, rfl, rfl⟩⟩

theorem keepsEntries_trans (s t u : SearchManager) (h1 : KeepsEntries s t)
    (h2 : KeepsEntries t u) : KeepsEntries s u := by
  refine ⟨le_trans h1.1 h2.1, ?_⟩
  intro i f hf
  obtain ⟨g, hg, hgid, hgp⟩ := h1.2 i f hf
  obtain ⟨k, hk, hkid, hkp⟩ := h2.2 i g hg
  exact ⟨k, hk, hkid.trans hgid, hkp.trans hgp⟩

theorem refreshStep_keeps (s : SearchManager) (entry : DirEntry) (h : Indexed s) :
    KeepsEntries s (refreshStep s entry).2 := by
  unfold refreshStep
  cases hfind : Map.find s.m_filePathIndexMap entry.path with
  | some idx =>
    simp only
    cases hget : s.m_files[idx]? with
    | some stored =>
      simp only
      split
      · refine ⟨by simp, ?_⟩
        intro i f hf
        by_cases hi : idx = i
        · subst hi
          rw [hget] at hf
          cases hf
          obtain ⟨g, hg, hgp⟩ := h entry.path idx hfind
          rw [hget] at hg
          cases hg
          refine ⟨{ getFileData entry with fileID := stored.fileID }, ?_, rfl, ?_⟩
          · simp only
            rw [List.getElem?_set_self (indexed_lt s h entry.path idx hfind)]
          · simp only [getFileData_path]
            exact hgp.symm
        · refine ⟨f, ?_, rfl, rfl⟩
          simp only
          rw [List.getElem?_set_ne hi]
          exact hf
      · exact keepsEntries_refl s
    | none => exact keepsEntries_refl s
  | none =>
    simp only
    split
    · exact keepsEntries_refl s
    · refine ⟨by simp, ?_⟩
      intro i f hf
      refine ⟨f, ?_, rfl, rfl⟩
      have hlt : i < s.m_files.length := by
        rcases Nat.lt_or_ge i s.m_files.length with hlt | hge
        · exact hlt
        · rw [List.getElem?_eq_none hge] at hf
          cases hf
      simp only
      rw [List.getElem?_append_left hlt]
      exact hf

theorem refreshLoop_keeps (walk : List DirEntry) :
    ∀ s : SearchManager, Indexed s → KeepsEntries s (refreshLoop s walk).2 := by
  induction walk with
  | nil => intro s _; exact keepsEntries_refl s
  | cons entry rest ih =>
    intro s h
    rw [refreshLoop_cons]
    by_cases hgo : (refreshStep s entry).1 = true
    · simp only [hgo, if_true]
      exact keepsEntries_trans _ _ _ (refreshStep_keeps s entry h)
        (ih _ (refreshStep_indexed s entry h))
    · simp only [hgo]
      exact refreshStep_keeps s entry h

/-- C17: in a catalog whose path index is consistent (`Indexed`, which holds in every state
built by the constructor, `LoadMetaData` and `Refresh`), after `Refresh` over any walk,
whether it succeeds or fails, the catalog has at least as many entries as before and every
entry that was there is still at the same position with the same id and the same path. -/
theorem C17_refresh_is_additive (s : SearchManager) (hidx : Indexed s)
    (walk : List DirEntry) :
    s.m_files.length ≤ (Refresh s walk).2.m_files.length ∧
      ∀ (i : Nat) (f : FileData), s.m_files[i]? = some f →
        ∃ g, (Refresh s walk).2.m_files[i]? = some g ∧ g.fileID = f.fileID ∧
          g.path = f.path :=
  refreshLoop_keeps walk s hidx

theorem C17_refresh_is_additive_witness :
    Indexed sampleCatalog ∧
      sampleCatalog.m_files.length ≤
        (Refresh sampleCatalog [brokenEntry "d/c"]).2.m_files.length :=
  have h : Indexed sampleCatalog :=
    catalogBuilt_indexed _
      (CatalogBuilt.refresh _ _ (CatalogBuilt.load _ _ _ _ (CatalogBuilt.new _)))
  ⟨h, (C17_refresh_is_additive sampleCatalog h [brokenEntry "d/c"]).1⟩

/-- C18 (code evaluated at the failing input): the sample catalog is reached by a successful
scan and a successful `Refresh` that added `d/b`; `d/b` is an entry of `GetAllFiles`, but
`FindFileByPath` does not find it. -/
theorem C18_new_entry_is_not_found_by_path :
    (LoadMetaData (SearchManager.new SearchMode.TOP_LEVEL) "d" SearchMode.TOP_LEVEL
        [sampleEntry "d/a" 1]).1 = true ∧
      (Refresh scannedCatalog [sampleEntry "d/a" 1, sampleEntry "d/b" 2]).1 = true ∧
      (Refresh scannedCatalog [sampleEntry "d/a" 1, sampleEntry "d/b" 2]).2 = sampleCatalog ∧
      (GetAllFiles sampleCatalog).map (fun f => f.path) = ["d/a", "d/b"] ∧
      (FindFileByPath sampleCatalog "d/a").map (fun f => f.path) = some "d/a" ∧
      FindFileByPath sampleCatalog "d/b" = none := by
  decide

theorem refreshLoop_fails_on_new (walk : List DirEntry) :
    ∀ s : SearchManager,
      (∃ e ∈ walk, e.readable = false ∧ Map.find s.m_filePathIndexMap e.path = none) →
      (refreshLoop s walk).1 = false := by
  induction walk with
  | nil => intro s h; simp at h
  | cons entry rest ih =>
    intro s h
    rw [refreshLoop_cons]
    by_cases hgo : (refreshStep s entry).1 = true
    · simp only [hgo, if_true]
      apply ih
      obtain ⟨e, he, hr, hnew⟩ := h
      rcases List.mem_cons.mp he with rfl | hmem
      · exfalso
        unfold refreshStep at hgo
        simp [hnew, getFileData_unreadable e hr] at hgo
      · exact ⟨e, hmem, hr, by rw [refreshStep_map]; exact hnew⟩
    · simp [hgo]

/-- C19 (code evaluated at the failing input): after a successful scan of a directory that
holds `d/a`, a `Refresh` whose walk yields `d/a` as an item that cannot be read returns
true, and overwrites the stored entry with the half-filled record.  When the unreadable
item's path is new, `Refresh` does return false. -/
theorem C19_refresh_ignores_unreadable_indexed_item :
    (brokenEntry "d/a").readable = false ∧
      Map.find scannedCatalog.m_filePathIndexMap "d/a" = some 0 ∧
      (Refresh scannedCatalog [brokenEntry "d/a"]).1 = true ∧
      (Refresh scannedCatalog [brokenEntry "d/a"]).2.m_files =
        [{ fileID := 0, name := "a", path := "d/a", type := FileType.SYMBOLIC_LINK, tag := "",
           modifiedTime := 0 }] ∧
      ∀ (s : SearchManager) (walk : List DirEntry),
        (∃ e ∈ walk, e.readable = false ∧ Map.find s.m_filePathIndexMap e.path = none) →
        (Refresh s walk).1 = false := by
  refine ⟨by decide, by decide, by decide, by decide, ?_⟩
  intro s walk h
  exact refreshLoop_fails_on_new walk s h

/-! ## Tag registry: removing, deleting and failing to persist -/

theorem Map.find_mapValues {V W : Type} (m : List (String × V)) (g : V → W) (k : String) :
    Map.find (m.map (fun p => (p.1, g p.2))) k = (Map.find m k).map g := by
  induction m with
  | nil => simp [Map.find]
  | cons x xs ih =>
    obtain ⟨a, b⟩ := x
    by_cases hk : a = k
    · simp [Map.find, hk]
    · simp only [List.map_cons, Map.find, hk, if_false, ih]

theorem removeLoop_tags (idx : Nat) (m : List (String × TagInfo)) :
    (removeLoop idx m).2 =
      m.map (fun p =>
        (p.1, { p.2 with fileIndices := p.2.fileIndices.filter (fun i => decide (i ≠ idx)) })) := by
  induction m with
  | nil => rfl
  | cons x xs ih =>
    obtain ⟨k, info⟩ := x
    simp only [removeLoop, List.map_cons, ih]

theorem filter_length_ne_iff (idx : Nat) (l : List Nat) :
    (l.filter (fun i => decide (i ≠ idx))).length ≠ l.length ↔ idx ∈ l := by
  rw [Ne, List.filter_length_eq_length]
  constructor
  · intro h
    by_contra hin
    apply h
    intro a ha
    simp only [ne_eq, decide_not, Bool.not_eq_eq_eq_not, Bool.not_true, decide_eq_false_iff_not]
    intro hab
    exact hin (hab ▸ ha)
  · intro hin h
    have := h idx hin
    simp at this

theorem removeLoop_anyRemoved (idx : Nat) (m : List (String × TagInfo)) :
    (removeLoop idx m).1 = true ↔ ∃ p ∈ m, idx ∈ p.2.fileIndices := by
  induction m with
  | nil => simp [removeLoop]
  | cons x xs ih =>
    obtain ⟨k, info⟩ := x
    simp only [removeLoop, Bool.or_eq_true, decide_eq_true_eq, ih, List.mem_cons,
      exists_eq_or_imp, filter_length_ne_iff]

/-- C12: for every registry state and index, `RemoveTagByIndex` filters the index out of
every tag's member list and changes nothing else: afterwards no tag's members contain it,
the tags are the same names in the same order with the same destinations, every member
list is the old one without the index, the store is untouched, and the call returns true
exactly when some tag contained the index before. -/
theorem C12_remove_by_index_strips_all (s : TagManager) (idx : Nat) :
    (RemoveTagByIndex s idx).2.tags =
        s.tags.map (fun p =>
          (p.1,
            { p.2 with fileIndices := p.2.fileIndices.filter (fun i => decide (i ≠ idx)) })) ∧
      (RemoveTagByIndex s idx).2.tagsJson = s.tagsJson ∧
      (∀ p ∈ (RemoveTagByIndex s idx).2.tags, idx ∉ p.2.fileIndices) ∧
      Map.keys (RemoveTagByIndex s idx).2.tags = Map.keys s.tags ∧
      (∀ k, Map.find (RemoveTagByIndex s idx).2.tags k =
        (Map.find s.tags k).map (fun info =>
          { info with
            fileIndices := info.fileIndices.filter (fun i => decide (i ≠ idx)) })) ∧
      (∀ k info j, Map.find (RemoveTagByIndex s idx).2.tags k = some info → j ≠ idx →
        ∀ old, Map.find s.tags k = some old →
          (j ∈ info.fileIndices ↔ j ∈ old.fileIndices)) ∧
      ((RemoveTagByIndex s idx).1 = true ↔ ∃ p ∈ s.tags, idx ∈ p.2.fileIndices) := by
  have htags : (RemoveTagByIndex s idx).2.tags =
      s.tags.map (fun p =>
        (p.1,
          { p.2 with fileIndices := p.2.fileIndices.filter (fun i => decide (i ≠ idx)) })) :=
    removeLoop_tags idx s.tags
  have hfind : ∀ k, Map.find (RemoveTagByIndex s idx).2.tags k =
      (Map.find s.tags k).map (fun info =>
        { info with
          fileIndices := info.fileIndices.filter (fun i => decide (i ≠ idx)) }) := by
    intro k
    rw [htags]
    exact Map.find_mapValues s.tags
      (fun info : TagInfo =>
        { info with fileIndices := info.fileIndices.filter (fun i => decide (i ≠ idx)) }) k
  refine ⟨htags, rfl, ?_, ?_, hfind, ?_, removeLoop_anyRemoved idx s.tags⟩
  · intro p hp
    rw [htags] at hp
    obtain ⟨q, _, rfl⟩ := List.mem_map.mp hp
    simp
  · rw [htags]
    unfold Map.keys
    rw [List.map_map]
    rfl
  · intro k info j hinfo hj old hold
    rw [hfind k, hold] at hinfo
    simp only [Option.map_some', Option.some.injEq] at hinfo
    rw [← hinfo]
    simp [hj]

/-- C13: for every registry state, `DeleteTag` of a name that is not a tag returns false
and leaves the tag map and the store as they were. -/
theorem C13_delete_unknown_tag (env : SaveEnv) (s : TagManager) (tagName : String)
    (h : Map.find s.tags tagName = none) : DeleteTag env s tagName = (false, s) :=
  DeleteTag_of_none env s tagName h

theorem C13_delete_unknown_tag_witness :
    Map.find sampleRegistry.tags "nope" = none ∧
      DeleteTag okEnv sampleRegistry "nope" = (false, sampleRegistry) :=
  ⟨by decide, C13_delete_unknown_tag okEnv sampleRegistry "nope" (by decide)⟩

/-- C14 (code evaluated): whenever persisting fails, `CreateTag` of a new name returns false
but keeps the inserted tag in memory; on the empty registry, a failing `CreateTag("w")`
leaves `w` as a tag while the store still lists no tag. -/
theorem C14_create_keeps_tag_when_save_fails :
    (∀ (env : SaveEnv) (s : TagManager) (name : String),
        env.succeeds = false → Map.find s.tags name = none →
        (CreateTag env s name).1 = false ∧
          Map.find (CreateTag env s name).2.tags name =
            some { destination := "", fileIndices := [] }) ∧
      emptyRegistry = { tags := [], tagsJson := StoreFile.tags [] } ∧
      CreateTag failEnv emptyRegistry "w" =
        (false,
          { tags := [("w", { destination := "", fileIndices := [] })],
            tagsJson := StoreFile.tags [] }) := by
  refine ⟨?_, by decide, by decide⟩
  intro env s name henv hfind
  rw [CreateTag_of_none env s name hfind, SaveTagsToJson_succeeds, SaveTagsToJson_tags]
  exact ⟨henv, Map.find_emplace_self s.tags name _ hfind⟩

/-! ## Tag registry: the store and the tag map -/

theorem save_store_of_succeeds (env : SaveEnv) (s : TagManager) (h : env.succeeds = true)
    (hw : env.writeOk = true) :
    (SaveTagsToJson env s).2.tagsJson = StoreFile.tags (destinationView s.tags) := by
  unfold SaveEnv.succeeds at h
  unfold SaveTagsToJson destinationView
  cases h1 : env.tmpOpens <;> cases h2 : env.renameOk <;> cases h3 : env.removeOk <;>
    cases h4 : env.retryOk <;> simp [h1, h2, h4, hw] at h ⊢

theorem storeConsistent_save (env : SaveEnv) (s : TagManager)
    (h : (SaveTagsToJson env s).1 = true) (hw : env.writeOk = true) :
    StoreConsistent (SaveTagsToJson env s).2 := by
  rw [SaveTagsToJson_succeeds] at h
  refine ⟨destinationView s.tags, save_store_of_succeeds env s h hw, ?_⟩
  intro k
  rw [SaveTagsToJson_tags]

theorem destinationView_modify (m : List (String × TagInfo)) (k : String)
    (f : TagInfo → TagInfo) (hf : ∀ v, (f v).destination = v.destination) :
    destinationView (Map.modify m k f) = destinationView m := by
  unfold destinationView Map.modify
  rw [List.map_map]
  apply List.map_congr_left
  intro p _
  by_cases h : p.1 = k <;> simp [h, hf]

theorem destinationView_removeLoop (idx : Nat) (m : List (String × TagInfo)) :
    destinationView (removeLoop idx m).2 = destinationView m := by
  rw [removeLoop_tags]
  unfold destinationView
  rw [List.map_map]
  rfl

theorem written_success_keeps_store_consistent (s : TagManager) (hc : StoreConsistent s)
    (env : SaveEnv) (hw : env.writeOk = true) (name : String) (idx : Nat) :
    ((CreateTag env s name).1 = true → StoreConsistent (CreateTag env s name).2) ∧
    ((DeleteTag env s name).1 = true → StoreConsistent (DeleteTag env s name).2) ∧
    ((AssignTagByIndex env s idx name).1 = true →
      StoreConsistent (AssignTagByIndex env s idx name).2) ∧
    ((RemoveTagByIndex s idx).1 = true → StoreConsistent (RemoveTagByIndex s idx).2) := by
  obtain ⟨entries, hstore, hlook⟩ := hc
  have hpush : ∀ v : TagInfo,
      ({ v with fileIndices := push_unique_index v.fileIndices idx } : TagInfo).destination =
        v.destination := fun _ => rfl
  refine ⟨?_, ?_, ?_, ?_⟩
  · intro h
    cases hfind : Map.find s.tags name with
    | some v => rw [CreateTag_of_some env s name v hfind] at h; cases h
    | none =>
      rw [CreateTag_of_none env s name hfind] at h ⊢
      exact storeConsistent_save env _ h hw
  · intro h
    cases hfind : Map.find s.tags name with
    | none => rw [DeleteTag_of_none env s name hfind] at h; cases h
    | some v =>
      rw [DeleteTag_of_some env s name v hfind] at h ⊢
      exact storeConsistent_save env _ h hw
  · intro h
    cases hfind : Map.find s.tags name with
    | some v =>
      rw [AssignTagByIndex_of_some env s idx name v hfind]
      refine ⟨entries, hstore, ?_⟩
      intro k
      simp only
      rw [destinationView_modify _ _ _ hpush]
      exact hlook k
    | none =>
      cases henv : env.succeeds with
      | false =>
        rw [AssignTagByIndex_of_none_failed env s idx name hfind henv] at h
        cases h
      | true =>
        rw [AssignTagByIndex_of_none_saved env s idx name hfind henv]
        refine ⟨_, save_store_of_succeeds env _ henv hw, ?_⟩
        intro k
        simp only
        rw [destinationView_modify _ _ _ hpush]
  · intro _
    refine ⟨entries, hstore, ?_⟩
    intro k
    show Map.find entries k = Map.find (destinationView (removeLoop idx s.tags).2) k
    rw [destinationView_removeLoop]
    exact hlook k

theorem not_storeConsistent_of_malformed (s : TagManager)
    (h : s.tagsJson = StoreFile.malformed) : ¬ StoreConsistent s := by
  rintro ⟨entries, hstore, _⟩
  rw [h] at hstore
  cases hstore

/-- C15 (code evaluated at the failing input): the sample registry and its store agree; on a
full disk, where the temporary file opens and is renamed but the write into it fails,
`CreateTag("w")`, `DeleteTag("t")` and `AssignTagByIndex(3, "w")` each return true and leave
a `tags.json` that does not parse, so the store no longer holds the in-memory pairs. -/
theorem C15_full_disk_breaks_store_consistency :
    StoreConsistent sampleRegistry ∧
      (CreateTag fullDiskEnv sampleRegistry "w").1 = true ∧
      Map.find (CreateTag fullDiskEnv sampleRegistry "w").2.tags "w" =
        some { destination := "", fileIndices := [] } ∧
      (CreateTag fullDiskEnv sampleRegistry "w").2.tagsJson = StoreFile.malformed ∧
      ¬ StoreConsistent (CreateTag fullDiskEnv sampleRegistry "w").2 ∧
      (DeleteTag fullDiskEnv sampleRegistry "t").1 = true ∧
      ¬ StoreConsistent (DeleteTag fullDiskEnv sampleRegistry "t").2 ∧
      (AssignTagByIndex fullDiskEnv sampleRegistry 3 "w").1 = true ∧
      ¬ StoreConsistent (AssignTagByIndex fullDiskEnv sampleRegistry 3 "w").2 :=
  ⟨⟨[("t", some "sorted")], rfl, fun _ => rfl⟩, by decide, by decide, by decide,
    not_storeConsistent_of_malformed _ (by decide), by decide,
    not_storeConsistent_of_malformed _ (by decide), by decide,
    not_storeConsistent_of_malformed _ (by decide)⟩

/-- C16: `SetDestination` on a path that exists and is not a directory fails validation,
returns false, and leaves the tag map and the store as they were. -/
theorem C16_set_destination_rejects_non_directory (denv : DestEnv) (env : SaveEnv)
    (s : TagManager) (name path : String)
    (hexists : denv.pathExists (denv.absolute path) = true)
    (hkind : denv.isDirectory (denv.absolute path) = false) :
    ValidateDestination denv path = none ∧
      SetDestination denv env s name path = (false, s) := by
  have hval : ValidateDestination denv path = none := by
    unfold ValidateDestination
    cases denv.absoluteThrows <;> simp [hexists, hkind]
  refine ⟨hval, ?_⟩
  unfold SetDestination
  rw [hval]

theorem C16_set_destination_rejects_non_directory_witness :
    sampleDestEnv.pathExists (sampleDestEnv.absolute "/data/notes.txt") = true ∧
      sampleDestEnv.isDirectory (sampleDestEnv.absolute "/data/notes.txt") = false ∧
      SetDestination sampleDestEnv okEnv sampleRegistry "t" "/data/notes.txt" =
        (false, sampleRegistry) :=
  ⟨by decide, rfl,
    (C16_set_destination_rejects_non_directory sampleDestEnv okEnv sampleRegistry "t"
      "/data/notes.txt" (by decide) rfl).2⟩

/-! ## Tag registry: saving and loading again -/

theorem ensureDirectory_empty (env : MoveEnv) (fs : FileSystem) :
    (EnsureDirectory env fs "").paths = fs.paths ∨
      (EnsureDirectory env fs "").paths = fs.paths ++ [""] := by
  unfold EnsureDirectory
  by_cases hin : "" ∈ fs.paths
  · simp [hin]
  · cases hc : env.canCreate "" with
    | false => simp [hin]
    | true =>
      right
      have hchain : directoryChain "" = [""] := by decide
      simp [hin, hchain]

theorem moveFilesByTag_empty_destination (fuel : Nat) (env : MoveEnv)
    (searchManager : SearchManager) (tagManager : TagManager) (fs : FileSystem)
    (tagName : String) (info : TagInfo) (hc : StoreConsistent tagManager)
    (hfind : Map.find tagManager.tags tagName = some info) (hdest : info.destination = "") :
    MoveFilesByTag fuel env searchManager tagManager fs tagName =
        Outcome.done (0, EnsureDirectory env fs "") ∧
      ((EnsureDirectory env fs "").paths = fs.paths ∨
        (EnsureDirectory env fs "").paths = fs.paths ++ [""]) := by
  refine ⟨?_, ensureDirectory_empty env fs⟩
  obtain ⟨entries, hstore, hlook⟩ := hc
  have hmap : Map.find (GetTagMap tagManager) tagName = some info.fileIndices := by
    unfold GetTagMap
    rw [Map.find_mapValues tagManager.tags (fun i : TagInfo => i.fileIndices) tagName, hfind]
    rfl
  have hentry : Map.find entries tagName = some (some "") := by
    rw [hlook tagName]
    unfold destinationView
    rw [Map.find_mapValues tagManager.tags (fun i : TagInfo => some i.destination) tagName,
      hfind, ← hdest]
    rfl
  unfold MoveFilesByTag
  rw [getFilesByTag_nil]
  simp only [hmap, hstore, hentry, moveLoop]

/-- C11 (code evaluated at the failing input): `tags.json` lists tag `u` as an object
without `destination`; `LoadTagsFromJson` accepts it, so in memory `u` has the empty
destination, and the index 0 is assigned to it.  `MoveFilesByTag("u")` then reads the absent
`destination` as a string without a test and throws out of the function instead of returning
0, and so does `MoveAllTaggedFiles`. -/
theorem C11_unset_destination_throws :
    Map.find noDestinationRegistry.tags "u" = some { destination := "", fileIndices := [0] } ∧
      noDestinationRegistry.tagsJson = StoreFile.tags [("u", none)] ∧
      MoveFilesByTag 4 okMoveEnv sampleCatalog noDestinationRegistry
        { paths := ["d/a", "d/b"] } "u" = Outcome.uncaught ∧
      MoveAllTaggedFiles 4 okMoveEnv sampleCatalog noDestinationRegistry
        { paths := ["d/a", "d/b"] } = Outcome.uncaught := by
  decide

end FileOrganiser
